import Mathlib

/-!
Verification of the core data structures of a 2D time-travel stealth game:
the run-length-encoded `History` store (src/collections/history.rs), the
auto-expanding `TileGrid` (src/collections/tile_grid.rs), the corner
extraction and raycasting of the light grid (src/level/light_grid.rs), and
the paradox/confusion update of the player
(src/level/entity_tracker/entity/player.rs).

Machine integers (`usize`) are modelled as `Nat` with explicit wrapping
where the source relies on it; `f64` quantities that the verified claims
touch are modelled as `ℚ` (the claims under study only exercise exact
values, where float and rational arithmetic agree).
-/

namespace TimeStealth

/-! ## History store (src/collections/history.rs) -/

/-- Frames are `usize` in the source; modelled as `Nat`. -/
abbrev FrameIndex := Nat

/-- `usize::MAX + 1`, used to model the wrapping `usize` arithmetic the source relies on. -/
def USIZE_SIZE : Nat := 2 ^ 64

/-- Rust `usize::wrapping_sub` (the release-profile semantics; debug builds panic on
underflow instead). -/
def usizeWrappingSub (a b : Nat) : Nat := (a + (USIZE_SIZE - b % USIZE_SIZE)) % USIZE_SIZE

/-- `Record<T>` from history.rs. `Variable` is a Lean keyword, so that constructor is
named `var` here. The `finish` of `Constant` is `NonZero<usize>` in the source; it is
carried as a plain `Nat`, its positivity being part of the history invariant. -/
inductive Record (T : Type) where
  | constant (start finish : Nat) (value : T)
  | var (start : Nat) (values : List T)
deriving DecidableEq

namespace Record

variable {T : Type}

/-- `Record::CONVERSION_THRESHOLD` -/
def CONVERSION_THRESHOLD : Nat := 5

/-- `Record::MAXIMUM_RECORD_LENGTH` -/
def MAXIMUM_RECORD_LENGTH : Nat := 256

/-- `Record::new` -/
def new (start : Nat) (value : T) : Record T := .constant start (start + 1) value

/-- `Record::start` -/
def start : Record T → Nat
  | .constant s _ _ => s
  | .var s _ => s

/-- `Record::finish` -/
def finish : Record T → Nat
  | .constant _ f _ => f
  | .var s values => s + values.length

/-- `Record::get`: `self.range().contains(&index).then(|| ...)`. -/
def get (r : Record T) (index : Nat) : Option T :=
  if r.start ≤ index ∧ index < r.finish then
    match r with
    | .constant _ _ value => some value
    | .var s values => values.get? (index - s)
  else none

/-- The tail of `Record::extend`'s `Variable` arm: the `MAXIMUM_RECORD_LENGTH` check
followed by the plain push. -/
def extendPush (s : Nat) (values : List T) (entry : T) : Record T × Option (Record T) :=
  if MAXIMUM_RECORD_LENGTH < values.length then
    (.var s values, some (.constant (s + values.length) (s + values.length + 1) entry))
  else
    (.var s (values ++ [entry]), none)

/-- `Record::extend`: mutates the record in place (first component) and optionally
returns a freshly split-off record (second component). The source panics when a
`Constant` record has `finish - start = 0`; such empty records never occur (they are
excluded by the history invariant), and that arm is folded into the default arm here. -/
def extend [DecidableEq T] (r : Record T) (entry : T) : Record T × Option (Record T) :=
  match r with
  | .constant s f value =>
    if value = entry then (.constant s (f + 1) value, none)
    else if f - s = 1 then (.var s [value, entry], none)
    else (.constant s f value, some (new f entry))
  | .var s values =>
    if CONVERSION_THRESHOLD ≤ values.length then
      let count := (values.reverse.takeWhile (fun x => decide (x = entry))).length
      if CONVERSION_THRESHOLD ≤ count + 1 then
        if values.length = count then
          (.constant s (s + values.length + 1) entry, none)
        else
          (.var s (values.take (values.length - count)),
            some (.constant (s + (values.length - count))
              (s + (values.length - count) + count + 1) entry))
      else extendPush s values entry
    else extendPush s values entry

end Record

/-- The Rust core binary search used by `slice::binary_search_by_key`:
`Sum.inl` plays `Ok` (a matching index), `Sum.inr` plays `Err` (the insertion point). -/
def binarySearchAux (keys : List Nat) (target : Nat) (left right : Nat) : Sum Nat Nat :=
  if _h : left < right then
    let mid := left + (right - left) / 2
    let k := keys.getD mid 0
    if k < target then binarySearchAux keys target (mid + 1) right
    else if target < k then binarySearchAux keys target left mid
    else .inl mid
  else .inr left
termination_by right - left
decreasing_by
· omega
· omega

/-- `History<T>` from history.rs. -/
structure History (T : Type) where
  data : List (Record T)
deriving DecidableEq

namespace History

variable {T : Type}

/-- `History::default` -/
def empty : History T := ⟨[]⟩

/-- `History::get`: binary search over record starts, `Err` insertion points are
shifted down by a wrapping subtraction (so `Err(0)` becomes `usize::MAX`, which
`Vec::get` turns into `None`), then a bounded lookup inside the found record. -/
def get (h : History T) (index : Nat) : Option T :=
  let recordIndex :=
    match binarySearchAux (h.data.map Record.start) index 0 h.data.length with
    | .inl i => i
    | .inr i => usizeWrappingSub i 1
  (h.data.get? recordIndex).bind (fun r => r.get index)

/-- The step of `History::try_insert` at the loop position whose record has
`finish == index`: `self.data[i].extend(entry)` followed by
`self.data.insert(i + 1, new_record)` when a new record is returned. -/
def extendAt [DecidableEq T] (r : Record T) (entry : T) (rest : List (Record T)) :
    Option Unit × List (Record T) :=
  let p := r.extend entry
  (some (), p.1 :: p.2.elim rest (fun nr => nr :: rest))

/-- The loop of `History::try_insert`, returning (result, updated record list):
the state component equals the input whenever the result is `none`, mirroring the
source's early `return None` before any mutation. -/
def tryInsertAux [DecidableEq T] (index : Nat) (entry : T) :
    List (Record T) → Option Unit × List (Record T)
  | [] => (some (), [Record.new index entry])
  | r :: rest =>
    if r.finish < index then
      let p := tryInsertAux index entry rest
      (p.1, r :: p.2)
    else if index < r.start then
      (some (), Record.new index entry :: r :: rest)
    else if r.finish = index then
      match rest with
      | next :: rest2 =>
        if next.start ≤ index then (none, r :: next :: rest2)
        else extendAt r entry (next :: rest2)
      | [] => extendAt r entry []
    else if r.start ≤ index ∧ index < r.finish then
      (none, r :: rest)
    else
      let p := tryInsertAux index entry rest
      (p.1, r :: p.2)

/-- `History::try_insert`. -/
def tryInsert [DecidableEq T] (h : History T) (index : Nat) (entry : T) :
    Option Unit × History T :=
  let p := tryInsertAux index entry h.data
  (p.1, ⟨p.2⟩)

end History

/-- The documented invariant of `History`: every record covers a nonempty frame range
and records sit in ascending, non-overlapping `start` order (gaps allowed). -/
def recordsWF {T : Type} : List (Record T) → Bool
  | [] => true
  | [r] => decide (r.start < r.finish)
  | r :: s :: rest =>
    decide (r.start < r.finish) && decide (r.finish ≤ s.start) && recordsWF (s :: rest)

/-- Reference semantics of a record list: linear search for the record whose
half-open range contains `index`. -/
def lookupRecords {T : Type} : List (Record T) → Nat → Option T
  | [], _ => none
  | r :: rest, index =>
    if r.start ≤ index ∧ index < r.finish then r.get index else lookupRecords rest index

/-- Folds `try_insert` over a list of (frame, value) pairs, also reporting whether
every insertion succeeded. -/
def insertAll {T : Type} [DecidableEq T] : List (Nat × T) → History T → Bool × History T
  | [], h => (true, h)
  | p :: rest, h =>
    let q := h.tryInsert p.1 p.2
    let w := insertAll rest q.2
    (q.1.isSome && w.1, w.2)

/-- The association lookup that a history built from a pair list must realize. -/
def lookupPairs {T : Type} (ps : List (Nat × T)) (index : Nat) : Option T :=
  (ps.find? (fun p => decide (p.1 = index))).map Prod.snd

/-- The list made of the extended record together with the optional split-off record
that `Record::extend` produces. -/
def extendResultList {T : Type} [DecidableEq T] (r : Record T) (v : T) : List (Record T) :=
  (r.extend v).1 :: ((r.extend v).2.elim [] (fun nr => [nr]))

/-! ## Tile grid (src/collections/tile_grid.rs) and pixels (src/level/light_grid.rs) -/

/-- Rust `usize as isize` (wrapping conversion). -/
def usizeAsIsize (u : Nat) : Int := if u < 2 ^ 63 then (u : Int) else (u : Int) - 2 ^ 64

/-- Rust `isize::saturating_sub`. -/
def isizeSaturatingSub (a b : Int) : Int := max (-(2 ^ 63)) (min (2 ^ 63 - 1) (a - b))

/-- Rust `isize::saturating_add`. -/
def isizeSaturatingAdd (a b : Int) : Int := max (-(2 ^ 63)) (min (2 ^ 63 - 1) (a + b))

/-- Rust `usize::wrapping_add_signed`. -/
def usizeWrappingAddSigned (n : Nat) (o : Int) : Nat := (((n : Int) + o) % (2 ^ 64)).toNat

/-- `TileRect` from tile_grid.rs: `origin : Point2<isize>`, `size : Vector2<usize>`,
with the two components of each spelled out as separate fields. -/
structure TileRect where
  originX : Int
  originY : Int
  sizeX : Nat
  sizeY : Nat
deriving DecidableEq

namespace TileRect

/-- `TileRect::default` -/
def default : TileRect := ⟨0, 0, 0, 0⟩

/-- `TileRect::left` -/
def left (r : TileRect) : Int := r.originX

/-- `TileRect::right` (`origin.x + size.x - 1`) -/
def right (r : TileRect) : Int := r.originX + r.sizeX - 1

/-- `TileRect::top` -/
def top (r : TileRect) : Int := r.originY

/-- `TileRect::bottom` (`origin.y + size.y - 1`) -/
def bottom (r : TileRect) : Int := r.originY + r.sizeY - 1

/-- `TileRect::contains_point` -/
def containsPoint (r : TileRect) (x y : Int) : Bool :=
  decide (r.left ≤ x) && decide (r.right ≥ x) && decide (r.top ≤ y) && decide (r.bottom ≥ y)

/-- `TileRect::area` -/
def area (r : TileRect) : Nat := r.sizeX * r.sizeY

/-- `TileRect::is_empty` -/
def isEmpty (r : TileRect) : Bool := decide (r.sizeX = 0) || decide (r.sizeY = 0)

/-- `TileRect::max_corner` (origin plus size on each axis). -/
def maxCornerX (r : TileRect) : Int := r.originX + r.sizeX

/-- `TileRect::max_corner`, y component. -/
def maxCornerY (r : TileRect) : Int := r.originY + r.sizeY

/-- `TileRect::expand_to_include_bounds`, returning (whether expansion occurred,
the updated receiver). The receiver is first replaced by `bounds` when it is empty;
each axis origin may move down to `min(bounds.origin, origin - min_expansion)` and
each axis end corner up to `max(bounds.end, end + min_expansion)`; the new size is
the absolute difference of origin and end corner. -/
def expandToIncludeBounds (self bounds : TileRect) (minExpX minExpY : Nat) :
    Bool × TileRect :=
  let expanded0 := self.isEmpty
  let self1 := if self.isEmpty then bounds else self
  let px :=
    if bounds.originX < self1.originX then
      (true, min bounds.originX (isizeSaturatingSub self1.originX (usizeAsIsize minExpX)))
    else (false, self1.originX)
  let py :=
    if bounds.originY < self1.originY then
      (true, min bounds.originY (isizeSaturatingSub self1.originY (usizeAsIsize minExpY)))
    else (false, self1.originY)
  let qx :=
    if bounds.maxCornerX > self1.maxCornerX then
      (true, max bounds.maxCornerX (isizeSaturatingAdd self1.maxCornerX (usizeAsIsize minExpX)))
    else (false, self1.maxCornerX)
  let qy :=
    if bounds.maxCornerY > self1.maxCornerY then
      (true, max bounds.maxCornerY (isizeSaturatingAdd self1.maxCornerY (usizeAsIsize minExpY)))
    else (false, self1.maxCornerY)
  (expanded0 || px.1 || py.1 || qx.1 || qy.1,
    { originX := px.2, originY := py.2,
      sizeX := (px.2 - qx.2).natAbs, sizeY := (py.2 - qy.2).natAbs })

/-- `TileRect::expand_to_include_index`: expansion to a 1×1 rectangle at the index. -/
def expandToIncludeIndex (self : TileRect) (x y : Int) (minExpX minExpY : Nat) :
    Bool × TileRect :=
  expandToIncludeBounds self ⟨x, y, 1, 1⟩ minExpX minExpY

end TileRect

/-- The `Empty` trait from tile_grid.rs, together with Rust's `Default` bound on it:
`empty` is documented to match `default`. -/
class Empty (T : Type) where
  default : T
  empty : T

/-- `TileGrid<T>` from tile_grid.rs. -/
structure TileGrid (T : Type) where
  bounds : TileRect
  tiles : List T
deriving DecidableEq

namespace TileGrid

variable {T : Type}

/-- `TileGrid::linear_index_of`: signed offset from the origin, rejected when a
component is negative (the `usize::try_from(..).ok()?`) or at or beyond the size. -/
def linearIndexOf (g : TileGrid T) (x y : Int) : Option Nat :=
  let dx := x - g.bounds.originX
  let dy := y - g.bounds.originY
  if 0 ≤ dx ∧ 0 ≤ dy then
    if dx.toNat < g.bounds.sizeX ∧ dy.toNat < g.bounds.sizeY then
      some (dx.toNat + dy.toNat * g.bounds.sizeX)
    else none
  else none

/-- The `Index` impl of `TileGrid` (the `&self` read path): out of bounds reads give
`T::empty()`. A well-formed grid has `tiles.length = bounds.area`, making the
in-bounds linear index valid; `getD`'s default is never consulted then. -/
def index [Empty T] (g : TileGrid T) (x y : Int) : T :=
  match g.linearIndexOf x y with
  | none => Empty.empty
  | some i => g.tiles.getD i Empty.default

/-- `TileGrid::set_bounds`: reallocates to the new rectangle, pulling each overlapping
cell from the old storage by wrapping-signed index offset and default-filling the rest
(the source moves cells out with `mem::take`; the index map is injective, so reading
copies is equivalent). -/
def setBounds [Empty T] (g : TileGrid T) (bounds : TileRect) : TileGrid T :=
  let offX := bounds.originX - g.bounds.originX
  let offY := bounds.originY - g.bounds.originY
  { bounds := bounds
    tiles := (List.range bounds.area).map (fun i =>
      let nx := i % bounds.sizeX
      let ny := i / bounds.sizeX
      let ox := usizeWrappingAddSigned nx offX
      let oy := usizeWrappingAddSigned ny offY
      if ox < g.bounds.sizeX ∧ oy < g.bounds.sizeY then
        g.tiles.getD (ox + oy * g.bounds.sizeX) Empty.default
      else Empty.default) }

/-- `TileGrid::expand_to_fit_index`. -/
def expandToFitIndex [Empty T] (g : TileGrid T) (x y : Int) : Bool × TileGrid T :=
  let p := TileRect.expandToIncludeIndex g.bounds x y
    (g.bounds.sizeX / 2) (g.bounds.sizeY / 2)
  if p.1 then (true, g.setBounds p.2) else (false, g)

/-- `TileGrid::expand_to_fit_bounds`. NB: the source's first line
`let mut bounds = self.bounds;` shadows the `bounds` parameter, so the parameter is
never read and the receiver is expanded to include itself; the model reproduces this
faithfully (the shadowing `let` below). -/
def expandToFitBounds [Empty T] (g : TileGrid T) (bounds : TileRect) :
    Bool × TileGrid T :=
  let bounds := g.bounds
  let p := TileRect.expandToIncludeBounds bounds bounds
    (g.bounds.sizeX / 2) (g.bounds.sizeY / 2)
  if p.1 then (true, g.setBounds p.2) else (false, g)

end TileGrid

/-- `Pixel` from src/level/light_grid.rs, with `Solid` as the `#[default]` variant. -/
inductive Pixel where
  | none
  | solid
deriving DecidableEq

/-- The `Default` and `Empty` impls for `Pixel`: both give `Solid`. -/
instance : Empty Pixel := ⟨Pixel.solid, Pixel.solid⟩

/-- `Pixel::is_none` -/
def Pixel.isNone : Pixel → Bool
  | .none => true
  | .solid => false

/-- `Pixel::blocks_light` -/
def Pixel.blocksLight (p : Pixel) : Bool := !p.isNone

/-- `Pixel::blocks_motion` -/
def Pixel.blocksMotion (p : Pixel) : Bool := !p.isNone

/-! ## Corner extraction (src/level/light_grid.rs) -/

/-- `CornerDirection` from light_grid.rs. -/
inductive CornerDirection where
  | convexNorthEast
  | convexNorthWest
  | convexSouthEast
  | convexSouthWest
  | concaveNorthEast
  | concaveNorthWest
  | concaveSouthEast
  | concaveSouthWest
deriving DecidableEq

/-- A 2×2 occlusion neighborhood `[[a, b], [c, d]]` as built by
`LightGrid::regenerate_corners`: `neighborhood[v][u]` holds `blocks_light` of the
cell at `(x + u - 1, y + v - 1)`, so in screen coordinates (y grows southward) `a` is
the cell northwest of the lattice vertex, `b` northeast, `c` southwest, `d`
southeast. -/
structure Neighborhood where
  a : Bool
  b : Bool
  c : Bool
  d : Bool
deriving DecidableEq

/-- `CornerDirection::from_neighborhood`, one arm per source pattern
(`[[a, b], [c, d]]` order preserved). -/
def CornerDirection.fromNeighborhood (n : Neighborhood) : List CornerDirection :=
  match n.a, n.b, n.c, n.d with
  | false, false, false, false => []
  | true, true, false, false => []
  | false, false, true, true => []
  | false, true, false, true => []
  | true, false, true, false => []
  | true, true, true, true => []
  | true, false, false, false => [.convexSouthEast]
  | false, true, false, false => [.convexSouthWest]
  | false, false, true, false => [.convexNorthEast]
  | false, false, false, true => [.convexNorthWest]
  | true, false, false, true => [.concaveNorthEast, .concaveSouthWest]
  | false, true, true, false => [.concaveNorthWest, .concaveSouthEast]
  | true, false, true, true => [.concaveNorthEast]
  | false, true, true, true => [.concaveNorthWest]
  | true, true, true, false => [.concaveSouthEast]
  | true, true, false, true => [.concaveSouthWest]

/-- `CornerDirection::is_concave` (the `CONVEX_CONCAVE_MASK` bit). -/
def CornerDirection.isConcave : CornerDirection → Bool
  | .concaveNorthEast | .concaveNorthWest | .concaveSouthEast | .concaveSouthWest => true
  | _ => false

/-- `CornerDirection::out`: the outward diagonal of the corner (x east, y south). -/
def CornerDirection.out : CornerDirection → Int × Int
  | .concaveNorthEast | .convexNorthEast => (1, -1)
  | .concaveNorthWest | .convexNorthWest => (-1, -1)
  | .concaveSouthEast | .convexSouthEast => (1, 1)
  | .concaveSouthWest | .convexSouthWest => (-1, 1)

/-- A selector for the four cells of a 2×2 neighborhood. -/
inductive Cell2x2 where
  | nw
  | ne
  | sw
  | se
deriving DecidableEq

instance : Fintype Cell2x2 :=
  ⟨⟨{Cell2x2.nw, Cell2x2.ne, Cell2x2.sw, Cell2x2.se}, by decide⟩, fun x => by cases x <;> decide⟩

/-- The diagonal direction from the lattice vertex toward each neighborhood cell
(x east, y south). -/
def Cell2x2.dir : Cell2x2 → Int × Int
  | .nw => (-1, -1)
  | .ne => (1, -1)
  | .sw => (-1, 1)
  | .se => (1, 1)

/-- Whether a given cell of the neighborhood blocks light. -/
def Neighborhood.blocked (n : Neighborhood) : Cell2x2 → Bool
  | .nw => n.a
  | .ne => n.b
  | .sw => n.c
  | .se => n.d

/-- The number of blocking cells in the neighborhood. -/
def Neighborhood.blockedCount (n : Neighborhood) : Nat :=
  n.a.toNat + n.b.toNat + n.c.toNat + n.d.toNat

/-- The diagonally-opposite two-blocking ("checkerboard") patterns. -/
def Neighborhood.checkerboard (n : Neighborhood) : Bool :=
  (n.a && n.d && !n.b && !n.c) || (n.b && n.c && !n.a && !n.d)

/-- Modelled from the claim C4's words: the corner classification it asserts, with
"oriented toward" read as the corner's outward diagonal pointing at the named cell.
Its convex clause says the single convex corner points toward the blocking cell. -/
def c4ClaimStatement : Prop :=
  ∀ n : Neighborhood,
    ((n.blockedCount = 0 ∨ n.blockedCount = 4) →
      CornerDirection.fromNeighborhood n = []) ∧
    ((n.blockedCount = 2 ∧ n.checkerboard = false) →
      CornerDirection.fromNeighborhood n = []) ∧
    (n.blockedCount = 1 → ∀ cell : Cell2x2, n.blocked cell = true →
      (CornerDirection.fromNeighborhood n).length = 1 ∧
      ∀ d ∈ CornerDirection.fromNeighborhood n,
        d.isConcave = false ∧ d.out = cell.dir) ∧
    (n.blockedCount = 3 → ∀ cell : Cell2x2, n.blocked cell = false →
      (CornerDirection.fromNeighborhood n).length = 1 ∧
      ∀ d ∈ CornerDirection.fromNeighborhood n,
        d.isConcave = true ∧ d.out = cell.dir) ∧
    (n.checkerboard = true →
      (CornerDirection.fromNeighborhood n).length = 2 ∧
      ∀ d ∈ CornerDirection.fromNeighborhood n, d.isConcave = true)

/-! ## Player paradox window (src/level/entity_tracker/entity/player.rs) -/

namespace Player

/-- `Player::CONFUSION_TIME` -/
def CONFUSION_TIME : ℚ := 1 / 10

/-- `Player::RECOVERY_TIME` -/
def RECOVERY_TIME : ℚ := 5

/-- `MAXIMUM_TEMPORAL_OFFSET` from the Recording arm of `Player::update`. -/
def MAXIMUM_TEMPORAL_OFFSET : Nat := 2

end Player

/-- Rust `f64::clamp(0.0, 1.0)` on exact rationals (`x.max(0.0).min(1.0)`). -/
def clamp01 (x : ℚ) : ℚ := min (max x 0) 1

/-- The frame range `frame - MAXIMUM_TEMPORAL_OFFSET .. frame + MAXIMUM_TEMPORAL_OFFSET + 1`
iterated by the Recording arm, on `usize` (the subtraction wraps in release builds and
panics in debug builds; a Rust `Range` whose start is not below its end is empty). -/
def paradoxWindow (frame : Nat) : List Nat :=
  let lo := usizeWrappingSub frame Player.MAXIMUM_TEMPORAL_OFFSET
  let hi := (frame + Player.MAXIMUM_TEMPORAL_OFFSET + 1) % USIZE_SIZE
  List.range' lo (hi - lo)

/-- `Option<f64>::partial_cmp(..).unwrap_or(Equal)`: `None` sorts below `Some`; `ℚ`
has no NaN, so the `unwrap_or` never fires. -/
def cmpOptRat : Option ℚ → Option ℚ → Ordering
  | Option.none, Option.none => .eq
  | Option.none, some _ => .lt
  | some _, Option.none => .gt
  | some a, some b => if a < b then .lt else if b < a then .gt else .eq

/-- The comparator of the Recording arm's `min_by`: compare `a.unzip().0`, that is,
the paradox levels, with positions ignored. -/
def cmpParadox {P : Type} (a b : Option (ℚ × P)) : Ordering :=
  cmpOptRat (a.map Prod.fst) (b.map Prod.fst)

/-- `Iterator::min_by`: `reduce` with `cmp::min_by`, which keeps the accumulated
element unless the comparison is `Greater`, so the first minimal element wins ties. -/
def minBy {α : Type} (cmp : α → α → Ordering) : List α → Option α
  | [] => Option.none
  | x :: xs => some (xs.foldl (fun acc y => if cmp acc y = .gt then y else acc) x)

/-- The observable outcome of one Recording-state `Player::update` step. -/
structure RecordingOutcome (P : Type) where
  confusion : ℚ
  paradoxPosition : Option (ℚ × P)
  dead : Bool
deriving DecidableEq

/-- The Recording arm of `Player::update`: paradox positions are carried as an
abstract type `P`; `paradoxLevel k` stands for `self.paradox_level(k, entities,
light_grid)`; `historyHasFrame` is whether `self.history.get(frame)` returned an
entry; `dt` is `UPDATE_DT`. The `> 1.0` death check reads the pre-clamp value, and
the final `clamp(0.0, 1.0)` of `update` is applied to the returned confusion. -/
def Player.recordingUpdate {P : Type} (paradoxLevel : Nat → Option (ℚ × P))
    (frame : Nat) (historyHasFrame : Bool) (confusion : ℚ)
    (oldParadoxPosition : Option (ℚ × P)) (dt : ℚ) : RecordingOutcome P :=
  if historyHasFrame then
    match minBy cmpParadox ((paradoxWindow frame).map paradoxLevel) with
    | some (some (pl, pp)) =>
      let c2 := confusion + pl / Player.CONFUSION_TIME * dt
      { confusion := clamp01 c2, paradoxPosition := some (pl, pp),
        dead := decide (c2 > 1) }
    | _ =>
      let c2 := confusion - 1 / Player.RECOVERY_TIME * dt
      { confusion := clamp01 c2, paradoxPosition := Option.none,
        dead := decide (c2 > 1) }
  else
    { confusion := clamp01 confusion, paradoxPosition := oldParadoxPosition,
      dead := false }

/-! ## Raycasting (src/level/light_grid.rs) -/

/-- `WallDirection` from light_grid.rs. -/
inductive WallDirection where
  | east
  | north
  | west
  | south
deriving DecidableEq

/-- `RayCollisionNormal` from light_grid.rs. -/
inductive RayCollisionNormal where
  | wall (d : WallDirection)
  | corner (c : CornerDirection) (b : Bool)
deriving DecidableEq

/-- `CornerDirection::new(concave, south, west)`: the transmute of
`concave * 0b100 | south * 0b010 | west * 0b001` over the discriminant listing of
the enum. -/
def CornerDirection.new (concave south west : Bool) : CornerDirection :=
  match concave, south, west with
  | false, false, false => .convexNorthEast
  | false, false, true => .convexNorthWest
  | false, true, false => .convexSouthEast
  | false, true, true => .convexSouthWest
  | true, false, false => .concaveNorthEast
  | true, false, true => .concaveNorthWest
  | true, true, false => .concaveSouthEast
  | true, true, true => .concaveSouthWest

/-- The `EPSILON` constant of `raycast` (`1e-6`, exact in `f64` and in `ℚ`). -/
def EPSILON : ℚ := 1 / 1000000

/-- `f64::floor` on exact rationals: Euclidean division of the numerator by the
(positive) denominator is the floor. -/
def floorQ (x : ℚ) : ℤ := Int.ediv x.num (x.den : ℤ)

/-- `f64::ceil` on exact rationals. -/
def ceilQ (x : ℚ) : ℤ := -floorQ (-x)

/-- `f64::rem_euclid(1.0)` on exact rationals: the fractional part in `[0, 1)`. -/
def fractQ (x : ℚ) : ℚ := x - ((floorQ x : ℤ) : ℚ)

/-- `f64::signum` on the exact rationals: the arguments arising here are never NaN,
and `ℚ` has no `-0.0`, so zero gets the sign `1` of `+0.0`. -/
def signumF (x : ℚ) : ℚ := if x < 0 then -1 else 1

/-- `f64::round`: round half away from zero. -/
def roundF (x : ℚ) : ℚ :=
  if x < 0 then -((floorQ (-x + 1 / 2) : ℤ) : ℚ) else ((floorQ (x + 1 / 2) : ℤ) : ℚ)

/-- A time value of the raycast loop: the `f64` quotients are either finite or `+∞`
(positive numerator over a zero denominator, for an exactly axis-aligned
direction). -/
inductive FTime where
  | fin (q : ℚ)
  | inf
deriving DecidableEq

/-- The loop's time quotient `num / den`, `den = |direction component| ≥ 0`: IEEE
division of the positive numerator `1 - rem_euclid(..) ∈ (0, 1]` by zero is `+∞`. -/
def FTime.div (num den : ℚ) : FTime := if den = 0 then .inf else .fin (num / den)

/-- `(time_x - time_y).abs() < EPSILON`: with an infinity involved the difference
is `±∞` (or NaN for `∞ - ∞`) and the comparison is false. -/
def FTime.closeEnough : FTime → FTime → Bool
  | .fin a, .fin b => decide (|a - b| < EPSILON)
  | _, _ => false

/-- IEEE `==` on the times (`∞ == ∞` holds). -/
def FTime.eqF : FTime → FTime → Bool
  | .fin a, .fin b => decide (a = b)
  | .inf, .inf => true
  | _, _ => false

/-- IEEE `<` on the times (a finite time is below `+∞`). -/
def FTime.ltF : FTime → FTime → Bool
  | .fin a, .fin b => decide (a < b)
  | .fin _, .inf => true
  | _, _ => false

/-- `move_in_direction` from light_grid.rs. -/
def moveInDirection (location direction : ℚ) : ℚ :=
  if direction > 0 then ((floorQ location : ℤ) : ℚ) + 1
  else ((ceilQ location : ℤ) : ℚ) - 1

/-- `index_of_location` from light_grid.rs, componentwise (`as isize` kept exact:
the cast saturation is unreachable at the magnitudes involved). -/
def indexOfLocation (location direction : ℚ × ℚ) : ℤ × ℤ :=
  (if 0 ≤ direction.1 then floorQ location.1 else ceilQ location.1 - 1,
   if 0 ≤ direction.2 then floorQ location.2 else ceilQ location.2 - 1)

/-- The `loop` of `raycast`, with explicit fuel (`none` when the fuel runs out; the
source loop always terminates on the inputs treated by the theorems below). The
state is the mutable `(location, side_a, side_b)` triple; `rem_euclid(1.0)` is
`fractQ`; the occluder callback is pure. The final `match (dir_sign_x,
dir_sign_y)` of the source, whose `unreachable!` arm cannot fire because both signs
are `±1`, is rendered as nested sign tests. -/
def raycastLoop (f : ℚ × ℚ → ℤ × ℤ → Bool) (start direction : ℚ × ℚ)
    (onXEdge onYEdge : Bool) (dirSignX dirSignY : ℤ)
    (maxDistance maxDistanceSq : ℚ) :
    Nat → ℚ × ℚ → Bool → Bool → Option ((ℚ × ℚ) × Option RayCollisionNormal)
  | 0, _, _, _ => Option.none
  | fuel + 1, location, sideA, sideB =>
    let timeX0 := FTime.div (1 - fractQ (location.1 * signumF direction.1))
      |direction.1|
    let timeY := FTime.div (1 - fractQ (location.2 * signumF direction.2))
      |direction.2|
    let timeX := if FTime.closeEnough timeX0 timeY then timeY else timeX0
    let location2 :=
      match timeX, timeY with
      | .fin a, .fin b =>
        if a < b then
          (moveInDirection location.1 direction.1, location.2 + a * direction.2)
        else if b < a then
          (location.1 + b * direction.1, moveInDirection location.2 direction.2)
        else
          (moveInDirection location.1 direction.1, moveInDirection location.2 direction.2)
      | .fin a, .inf =>
        (moveInDirection location.1 direction.1, location.2 + a * direction.2)
      | .inf, .fin b =>
        (location.1 + b * direction.1, moveInDirection location.2 direction.2)
      | .inf, .inf =>
        (moveInDirection location.1 direction.1, moveInDirection location.2 direction.2)
    if (start.1 - location2.1) ^ 2 + (start.2 - location2.2) ^ 2 ≥ maxDistanceSq then
      some ((start.1 + direction.1 * maxDistance, start.2 + direction.2 * maxDistance),
        Option.none)
    else
      let index := indexOfLocation location2 direction
      if onXEdge || onYEdge then
        let sideA2 :=
          if !sideA then
            if onXEdge then f location2 (index.1 - 1, index.2)
            else f location2 (index.1, index.2 - 1)
          else sideA
        let sideB2 := if !sideB then f location2 index else sideB
        if sideA2 && sideB2 then
          some (location2, some (.wall
            (if onYEdge then
              if dirSignX > 0 then .west else .east
            else
              if dirSignY > 0 then .north else .south)))
        else
          raycastLoop f start direction onXEdge onYEdge dirSignX dirSignY maxDistance
            maxDistanceSq fuel location2 sideA2 sideB2
      else
        let timesEqual := FTime.eqF timeX timeY
        let sideANow := timesEqual && f location2 (index.1 - dirSignX, index.2)
        let sideBNow := timesEqual && f location2 (index.1, index.2 - dirSignY)
        let sideA2 := sideA || sideANow
        let sideB2 := sideB || sideBNow
        if f location2 index then
          some (location2,
            if timesEqual && (sideANow == sideBNow) then
              some (.corner
                (CornerDirection.new sideANow (decide (dirSignY < 0))
                  (decide (dirSignX > 0)))
                (!sideANow || !(sideA || sideB)))
            else
              let xDirection := if timesEqual then sideBNow else FTime.ltF timeX timeY
              some (.wall
                (if xDirection then
                  if dirSignX > 0 then .west else .east
                else
                  if dirSignY > 0 then .north else .south)))
        else if sideA2 && sideB2 then
          some (location2,
            if sideANow && sideBNow then
              some (.corner
                (CornerDirection.new true (decide (dirSignY < 0))
                  (decide (dirSignX > 0))) false)
            else
              let southWest : Bool × Bool :=
                if dirSignX = 1 then
                  if dirSignY = 1 then (!sideANow, !sideANow) else (!sideANow, sideANow)
                else
                  if dirSignY = 1 then (sideANow, !sideANow) else (sideANow, sideANow)
              some (.corner (CornerDirection.new false southWest.1 southWest.2) true))
        else
          raycastLoop f start direction onXEdge onYEdge dirSignX dirSignY maxDistance
            maxDistanceSq fuel location2 sideA2 sideB2

/-- `raycast` from light_grid.rs on exact rationals, with explicit loop fuel. The
initial index is taken at the unsnapped location and direction, exactly as in the
source; the direction and location snapping, the initial edge cell tests and the
early return mirror lines 896–942. -/
def raycast (f : ℚ × ℚ → ℤ × ℤ → Bool) (start direction0 : ℚ × ℚ)
    (maxDistance : ℚ) (fuel : Nat) : Option ((ℚ × ℚ) × Option RayCollisionNormal) :=
  let index := indexOfLocation start direction0
  let dirSnap : (ℚ × ℚ) × Bool × Bool :=
    if |direction0.1| ≤ EPSILON then ((0, signumF direction0.2), true, false)
    else if |direction0.2| ≤ EPSILON then ((signumF direction0.1, 0), false, true)
    else (direction0, false, false)
  let direction := dirSnap.1
  let locX : ℚ × Bool :=
    if |roundF start.1 - start.1| ≤ EPSILON then (roundF start.1, dirSnap.2.1)
    else (start.1, false)
  let locY : ℚ × Bool :=
    if |roundF start.2 - start.2| ≤ EPSILON then (roundF start.2, dirSnap.2.2)
    else (start.2, false)
  let location := (locX.1, locY.1)
  let onXEdge := locX.2
  let onYEdge := locY.2
  let sideA :=
    if onXEdge then f location (index.1 - 1, index.2)
    else if onYEdge then f location (index.1, index.2 - 1)
    else false
  let sideB := f location index
  if sideA || sideB then
    some (location, Option.none)
  else
    let dirSignX : ℤ := if direction.1 < 0 then -1 else 1
    let dirSignY : ℤ := if direction.2 < 0 then -1 else 1
    let maxDistanceSq := (maxDistance - EPSILON) ^ 2
    raycastLoop f start direction onXEdge onYEdge dirSignX dirSignY maxDistance
      maxDistanceSq fuel location sideA sideB

/-- Reference walk for an exactly axis-aligned ray started at a lattice point: the
integer position advances one cell boundary per iteration; at each boundary the two
cells sharing the travelled grid line are tested and latched into the persistent
`side_a` / `side_b` flags, and the walk collides only once BOTH flags have latched —
this is the behavior the amended C3 proves `raycast` equal to. -/
def latchWalk (g : ℤ × ℤ → Bool) (startPos : ℤ × ℤ) (d : ℤ × ℤ) (maxD : ℚ) :
    Nat → ℤ × ℤ → Bool → Bool → Option ((ℚ × ℚ) × Option RayCollisionNormal)
  | 0, _, _, _ => Option.none
  | fuel + 1, p, sa, sb =>
    let p2 := (p.1 + d.1, p.2 + d.2)
    if ((startPos.1 - p2.1 : ℚ)) ^ 2 + ((startPos.2 - p2.2 : ℚ)) ^ 2 ≥
        (maxD - EPSILON) ^ 2 then
      some (((startPos.1 : ℚ) + (d.1 : ℚ) * maxD, (startPos.2 : ℚ) + (d.2 : ℚ) * maxD),
        Option.none)
    else
      let idx : ℤ × ℤ := (if 0 ≤ d.1 then p2.1 else p2.1 - 1,
        if 0 ≤ d.2 then p2.2 else p2.2 - 1)
      let sa2 := sa || (if d.1 = 0 then g (idx.1 - 1, idx.2) else g (idx.1, idx.2 - 1))
      let sb2 := sb || g idx
      if sa2 && sb2 then
        some (((p2.1 : ℚ), (p2.2 : ℚ)), some (.wall
          (if d.1 = 0 then
            if 0 < d.2 then .north else .south
          else
            if 0 < d.1 then .west else .east)))
      else
        latchWalk g startPos d maxD fuel p2 sa2 sb2

/-- Modelled from the claim C3's words, the brute-force cell-by-cell scan along a
grid line: `line` is the integer coordinate of the travelled grid line, `axis0` the
start coordinate along it, `vertical`/`forward` select the axis and sign of travel.
Each cell slab `k` (spanning `[k, k+1]` along the travel axis) is entered at
coordinate `max axis0 k` (forward) or `min axis0 (k+1)` (backward); the scan
returns the entry coordinate of the first slab within `max_distance` whose two
straddled cells include a blocked one. -/
def bruteScan (g : ℤ × ℤ → Bool) (line : ℤ) (axis0 : ℚ) (vertical forward : Bool)
    (maxD : ℚ) : Nat → ℤ → Option ℚ
  | 0, _ => Option.none
  | fuel + 1, k =>
    let entry : ℚ := if forward then max axis0 (k : ℚ) else min axis0 ((k : ℚ) + 1)
    if |entry - axis0| ≤ maxD then
      let cA : ℤ × ℤ := if vertical then (line - 1, k) else (k, line - 1)
      let cB : ℤ × ℤ := if vertical then (line, k) else (k, line)
      if g cA || g cB then some entry
      else bruteScan g line axis0 vertical forward maxD fuel (if forward then k + 1 else k - 1)
    else Option.none

/-- The brute-force scan of claim C3, started at the slab containing the start
point, with enough fuel to cover every slab within `max_distance`. -/
def bruteForce (g : ℤ × ℤ → Bool) (line : ℤ) (axis0 : ℚ) (vertical forward : Bool)
    (maxD : ℚ) : Option (ℚ × ℚ) :=
  match bruteScan g line axis0 vertical forward maxD ((ceilQ maxD).toNat + 2)
      (if forward then floorQ axis0 else ceilQ axis0 - 1) with
  | some e => some (if vertical then ((line : ℚ), e) else (e, (line : ℚ)))
  | Option.none => Option.none

/-- Modelled from the claim C3's words: for every occluder predicate on cells,
every start point on a grid line and every exactly axis-aligned unit direction,
whenever the (fuelled) raycast returns, it reports a collision exactly when the
brute-force scan finds a blocked straddled cell within `max_distance`, and then at
the position the scan found. -/
def c3ClaimStatement : Prop :=
  ∀ (g : ℤ × ℤ → Bool) (line : ℤ) (axis0 : ℚ) (vertical forward : Bool)
    (maxD : ℚ) (fuel : Nat) (loc : ℚ × ℚ) (normal : Option RayCollisionNormal),
    0 < maxD →
    raycast (fun _ idx => g idx)
      (if vertical then ((line : ℚ), axis0) else (axis0, (line : ℚ)))
      (if vertical then ((0 : ℚ), if forward then 1 else -1)
        else ((if forward then 1 else -1), (0 : ℚ)))
      maxD fuel = some (loc, normal) →
    match bruteForce g line axis0 vertical forward maxD with
    | some p => normal ≠ Option.none ∧ loc = p
    | Option.none => normal = Option.none

/-! ## Lemmas: the history invariant -/

section HistoryLemmas

variable {T : Type}

lemma recordsWF_cons (r : Record T) (rest : List (Record T)) :
    recordsWF (r :: rest) = true ↔
      r.start < r.finish ∧ (∀ z, rest.head? = some z → r.finish ≤ z.start) ∧
        recordsWF rest = true := by
  cases rest with
  | nil => simp [recordsWF]
  | cons s rest2 =>
    simp only [recordsWF, Bool.and_eq_true, decide_eq_true_eq, List.head?_cons,
      Option.some.injEq]
    constructor
    · rintro ⟨⟨h1, h2⟩, h3⟩
      exact ⟨h1, fun z hz => hz ▸ h2, h3⟩
    · rintro ⟨h1, h2, h3⟩
      exact ⟨⟨h1, h2 s rfl⟩, h3⟩

lemma recordsWF_nonempty {d : List (Record T)} (hwf : recordsWF d = true) :
    ∀ r ∈ d, r.start < r.finish := by
  induction d with
  | nil => simp
  | cons r rest ih =>
    rw [recordsWF_cons] at hwf
    intro x hx
    rcases List.mem_cons.mp hx with h | h
    · exact h ▸ hwf.1
    · exact ih hwf.2.2 x h

lemma recordsWF_tail {r : Record T} {rest : List (Record T)}
    (hwf : recordsWF (r :: rest) = true) : recordsWF rest = true :=
  ((recordsWF_cons r rest).mp hwf).2.2

lemma recordsWF_le_all :
    ∀ {rest : List (Record T)} {r : Record T}, recordsWF (r :: rest) = true →
      ∀ x ∈ rest, r.finish ≤ x.start := by
  intro rest
  induction rest with
  | nil => simp
  | cons s rest2 ih =>
    intro r hwf x hx
    rw [recordsWF_cons] at hwf
    rcases List.mem_cons.mp hx with h | h
    · exact h ▸ hwf.2.1 s rfl
    · have h1 : r.finish ≤ s.start := hwf.2.1 s rfl
      have h2 : s.start < s.finish :=
        recordsWF_nonempty hwf.2.2 s (List.mem_cons_self s rest2)
      have h3 : s.finish ≤ x.start := ih hwf.2.2 x h
      omega

lemma recordsWF_get?_le {d : List (Record T)} (hwf : recordsWF d = true)
    {i j : Nat} (hij : i < j) {x y : Record T}
    (hx : d.get? i = some x) (hy : d.get? j = some y) : x.finish ≤ y.start := by
  induction d generalizing i j with
  | nil => simp at hx
  | cons r rest ih =>
    cases i with
    | zero =>
      simp only [List.get?] at hx
      cases hx
      cases j with
      | zero => omega
      | succ j2 =>
        exact recordsWF_le_all hwf y (List.get?_mem hy)
    | succ i2 =>
      cases j with
      | zero => omega
      | succ j2 => exact ih (recordsWF_tail hwf) (by omega) hx hy

lemma recordsWF_start_lt {d : List (Record T)} (hwf : recordsWF d = true)
    {i j : Nat} (hij : i < j) {x y : Record T}
    (hx : d.get? i = some x) (hy : d.get? j = some y) : x.start < y.start := by
  have h1 := recordsWF_get?_le hwf hij hx hy
  have h2 := recordsWF_nonempty hwf x (List.get?_mem hx)
  omega

/-- Builds the invariant of a cons cell from its parts. -/
lemma recordsWF_cons_of (r : Record T) (rest : List (Record T))
    (h1 : r.start < r.finish) (h2 : ∀ z, rest.head? = some z → r.finish ≤ z.start)
    (h3 : recordsWF rest = true) : recordsWF (r :: rest) = true :=
  (recordsWF_cons r rest).mpr ⟨h1, h2, h3⟩

lemma recordsWF_append {a b : List (Record T)} {bound : Nat}
    (ha : recordsWF a = true) (hb : recordsWF b = true)
    (hfin : ∀ x ∈ a, x.finish ≤ bound)
    (hhead : ∀ z, b.head? = some z → bound ≤ z.start) :
    recordsWF (a ++ b) = true := by
  induction a with
  | nil => simpa using hb
  | cons r rest ih =>
    rw [recordsWF_cons] at ha
    refine recordsWF_cons_of _ _ ha.1 ?_ (ih ha.2.2 (fun x hx => hfin x (by simp [hx])))
    intro z hz
    cases rest with
    | nil =>
      have hrb : r.finish ≤ bound := hfin r (by simp)
      have := hhead z (by simpa using hz)
      omega
    | cons s rest2 => exact ha.2.1 z (by simpa using hz)

end HistoryLemmas

/-! ## Lemmas: list utilities -/

section ListLemmas

variable {α : Type}

lemma takeWhile_get?_eq (l : List α) (p : α → Bool) (i : Nat)
    (h : i < (l.takeWhile p).length) : (l.takeWhile p).get? i = l.get? i := by
  induction l generalizing i with
  | nil => simp [List.takeWhile] at h
  | cons x xs ih =>
    rw [List.takeWhile] at h ⊢
    cases hp : p x with
    | false => simp [hp] at h
    | true =>
      simp only [hp] at h ⊢
      cases i with
      | zero => rfl
      | succ j => simpa using ih j (by simpa using h)

lemma get?_of_lt {l : List α} {i : Nat} (h : i < l.length) : ∃ x, l.get? i = some x :=
  ⟨l.get ⟨i, h⟩, List.get?_eq_get h⟩

/-- Every element in the suffix of length `count` matched by the reversed `takeWhile`
scan of `Record::extend` satisfies the scanned property. -/
lemma trailing_run_prop (l : List α) (p : α → Bool) {k : Nat}
    (hk1 : l.length - (l.reverse.takeWhile p).length ≤ k) (hk2 : k < l.length) :
    ∃ x, l.get? k = some x ∧ p x = true := by
  set count := (l.reverse.takeWhile p).length with hcount
  have hcle : count ≤ l.length := by
    simpa using (List.takeWhile_sublist p (l := l.reverse)).length_le
  have hidx : l.length - 1 - k < count := by omega
  obtain ⟨x, hx⟩ := get?_of_lt (l := l.reverse.takeWhile p) (i := l.length - 1 - k)
    (by omega)
  have hp : p x = true := List.mem_takeWhile_imp (List.get?_mem hx)
  have hrev : l.reverse.get? (l.length - 1 - k) = some x := by
    rw [← takeWhile_get?_eq l.reverse p _ (by omega)]
    exact hx
  rw [List.get?_reverse (show l.length - 1 - k < l.length by omega)] at hrev
  have : l.length - 1 - (l.length - 1 - k) = k := by omega
  rw [this] at hrev
  exact ⟨x, hrev, hp⟩

end ListLemmas

/-! ## Lemmas: binary search -/

lemma binarySearchAux_step (keys : List Nat) (target l r : Nat) (h : l < r) :
    binarySearchAux keys target l r =
      (if keys.getD (l + (r - l) / 2) 0 < target then
        binarySearchAux keys target (l + (r - l) / 2 + 1) r
      else if target < keys.getD (l + (r - l) / 2) 0 then
        binarySearchAux keys target l (l + (r - l) / 2)
      else .inl (l + (r - l) / 2)) := by
  rw [binarySearchAux, dif_pos h]

lemma binarySearchAux_base (keys : List Nat) (target l r : Nat) (h : ¬ l < r) :
    binarySearchAux keys target l r = .inr l := by
  rw [binarySearchAux, dif_neg h]

lemma binarySearchAux_spec (keys : List Nat) (target : Nat)
    (hmono : ∀ i j, i < j → j < keys.length → keys.getD i 0 < keys.getD j 0) :
    ∀ n l r, r - l = n → l ≤ r → r ≤ keys.length →
      (∀ j, j < l → keys.getD j 0 < target) →
      (∀ j, r ≤ j → j < keys.length → target < keys.getD j 0) →
      (∀ i, binarySearchAux keys target l r = .inl i →
        i < keys.length ∧ keys.getD i 0 = target) ∧
      (∀ i, binarySearchAux keys target l r = .inr i → l ≤ i ∧ i ≤ r ∧
        (∀ j, j < i → keys.getD j 0 < target) ∧
        (∀ j, i ≤ j → j < keys.length → target < keys.getD j 0)) := by
  intro n
  induction n using Nat.strong_induction_on with
  | _ n ih =>
    intro l r hn hlr hrlen hleft hright
    by_cases hcase : l < r
    · rw [binarySearchAux_step keys target l r hcase]
      set mid := l + (r - l) / 2 with hmid
      have hmid1 : l ≤ mid := by omega
      have hmid2 : mid < r := by omega
      by_cases hk1 : keys.getD mid 0 < target
      · rw [if_pos hk1]
        have hleft2 : ∀ j, j < mid + 1 → keys.getD j 0 < target := by
          intro j hj
          rcases Nat.lt_or_ge j l with h | h
          · exact hleft j h
          · rcases Nat.lt_or_ge j mid with h2 | h2
            · exact lt_trans (hmono j mid h2 (by omega)) hk1
            · have : j = mid := by omega
              exact this ▸ hk1
        obtain ⟨ha, hb⟩ := ih (r - (mid + 1)) (by omega) (mid + 1) r rfl (by omega)
          hrlen hleft2 hright
        refine ⟨ha, ?_⟩
        intro i hi
        obtain ⟨h1, h2, h3, h4⟩ := hb i hi
        exact ⟨by omega, h2, h3, h4⟩
      · rw [if_neg hk1]
        by_cases hk2 : target < keys.getD mid 0
        · rw [if_pos hk2]
          have hright2 : ∀ j, mid ≤ j → j < keys.length → target < keys.getD j 0 := by
            intro j hj hjlen
            rcases Nat.eq_or_lt_of_le hj with h | h
            · exact h ▸ hk2
            · exact lt_trans hk2 (hmono mid j h hjlen)
          obtain ⟨ha, hb⟩ := ih (mid - l) (by omega) l mid rfl (by omega) (by omega)
            hleft hright2
          refine ⟨ha, ?_⟩
          intro i hi
          obtain ⟨h1, h2, h3, h4⟩ := hb i hi
          exact ⟨h1, by omega, h3, h4⟩
        · rw [if_neg hk2]
          constructor
          · intro i hi
            cases hi
            exact ⟨by omega, by omega⟩
          · intro i hi
            cases hi
    · rw [binarySearchAux_base keys target l r hcase]
      have hrl : l = r := by omega
      constructor
      · intro i hi
        cases hi
      · intro i hi
        cases hi
        exact ⟨le_refl l, by omega, hleft, fun j hj hjlen => hright j (by omega) hjlen⟩

/-! ## Lemmas: `History::get` agrees with the linear reference lookup -/

section GetLemmas

variable {T : Type}

lemma lookupRecords_none {f : Nat} :
    ∀ {d : List (Record T)}, (∀ r ∈ d, ¬(r.start ≤ f ∧ f < r.finish)) →
      lookupRecords d f = none := by
  intro d
  induction d with
  | nil => intro _; rfl
  | cons r rest ih =>
    intro h
    rw [lookupRecords, if_neg (h r (by simp))]
    exact ih (fun x hx => h x (by simp [hx]))

lemma lookupRecords_at {f : Nat} :
    ∀ {d : List (Record T)} (i : Nat) (r : Record T), d.get? i = some r →
      (∀ j, j < i → ∀ s, d.get? j = some s → ¬(s.start ≤ f ∧ f < s.finish)) →
      (∀ j, i < j → ∀ s, d.get? j = some s → ¬(s.start ≤ f ∧ f < s.finish)) →
      lookupRecords d f = r.get f := by
  intro d
  induction d with
  | nil => intro i r hr; simp at hr
  | cons x rest ih =>
    intro i r hr hbefore hafter
    cases i with
    | zero =>
      simp only [List.get?] at hr
      cases hr
      by_cases hc : x.start ≤ f ∧ f < x.finish
      · rw [lookupRecords, if_pos hc]
      · rw [lookupRecords, if_neg hc]
        have hnone : lookupRecords rest f = none := by
          refine lookupRecords_none ?_
          intro s hs
          obtain ⟨j, hj⟩ := List.mem_iff_get?.mp hs
          exact hafter (j + 1) (by omega) s (by simpa using hj)
        rw [hnone, Record.get.eq_def, if_neg hc]
    | succ i2 =>
      have hx : ¬(x.start ≤ f ∧ f < x.finish) :=
        hbefore 0 (by omega) x rfl
      rw [lookupRecords, if_neg hx]
      refine ih i2 r hr ?_ ?_
      · intro j hj s hs
        exact hbefore (j + 1) (by omega) s (by simpa using hs)
      · intro j hj s hs
        exact hafter (j + 1) (by omega) s (by simpa using hs)

lemma history_get_eq_lookup (d : List (Record T)) (hwf : recordsWF d = true)
    (hlen : d.length < USIZE_SIZE) (f : Nat) :
    History.get ⟨d⟩ f = lookupRecords d f := by
  have hkeys : ∀ i x, d.get? i = some x → (d.map Record.start).getD i 0 = x.start := by
    intro i x hx
    rw [List.getD_eq_get?, List.get?_map, hx]
    rfl
  have hklen : (d.map Record.start).length = d.length := List.length_map _ _
  have hmono : ∀ i j, i < j → j < (d.map Record.start).length →
      (d.map Record.start).getD i 0 < (d.map Record.start).getD j 0 := by
    intro i j hij hj
    rw [hklen] at hj
    obtain ⟨x, hx⟩ := get?_of_lt (l := d) (by omega : i < d.length)
    obtain ⟨y, hy⟩ := get?_of_lt (l := d) hj
    rw [hkeys i x hx, hkeys j y hy]
    exact recordsWF_start_lt hwf hij hx hy
  obtain ⟨hinl, hinr⟩ := binarySearchAux_spec (d.map Record.start) f hmono
    (d.length - 0) 0 d.length rfl (by omega) (by omega) (by omega)
    (fun j hj hjlen => absurd hjlen (by omega))
  rw [History.get]
  cases hbs : binarySearchAux (d.map Record.start) f 0 d.length with
  | inl i =>
    obtain ⟨hilen, hikey⟩ := hinl i hbs
    rw [hklen] at hilen
    obtain ⟨x, hx⟩ := get?_of_lt hilen
    rw [hkeys i x hx] at hikey
    show (d.get? i).bind (fun r => r.get f) = lookupRecords d f
    simp only [hx, Option.bind_some]
    symm
    refine lookupRecords_at i x hx ?_ ?_
    · intro j hj s hs
      have := recordsWF_get?_le hwf hj hs hx
      omega
    · intro j hj s hs
      have := recordsWF_start_lt hwf hj hx hs
      omega
  | inr i =>
    obtain ⟨_, hir, hbelow, habove⟩ := hinr i hbs
    rw [hklen] at habove
    show (d.get? (usizeWrappingSub i 1)).bind (fun r => r.get f) = lookupRecords d f
    cases i with
    | zero =>
      have hwrap : usizeWrappingSub 0 1 = USIZE_SIZE - 1 := by
        rw [usizeWrappingSub]
        rw [USIZE_SIZE]
        norm_num
      have hnone : d.get? (usizeWrappingSub 0 1) = none := by
        rw [hwrap]
        refine List.get?_len_le ?_
        rw [USIZE_SIZE] at hlen ⊢
        omega
      rw [hnone]
      symm
      refine lookupRecords_none ?_
      intro r hr
      obtain ⟨j, hj⟩ := List.mem_iff_get?.mp hr
      have hjlen : j < d.length := by
        by_contra hcon
        rw [List.get?_len_le (by omega)] at hj
        cases hj
      have := habove j (by omega) hjlen
      rw [hkeys j r hj] at this
      omega
    | succ i2 =>
      have hi2len : i2 < d.length := by omega
      have hwrap : usizeWrappingSub (i2 + 1) 1 = i2 := by
        rw [usizeWrappingSub, USIZE_SIZE]
        rw [USIZE_SIZE] at hlen
        omega
      rw [hwrap]
      obtain ⟨x, hx⟩ := get?_of_lt hi2len
      have hxstart : x.start < f := by
        have := hbelow i2 (by omega)
        rw [hkeys i2 x hx] at this
        exact this
      rw [hx]
      show x.get f = lookupRecords d f
      symm
      by_cases hc : f < x.finish
      · refine lookupRecords_at i2 x hx ?_ ?_
        · intro j hj s hs
          have := recordsWF_get?_le hwf hj hs hx
          omega
        · intro j hj s hs
          have hjlen : j < d.length := by
            by_contra hcon
            rw [List.get?_len_le (by omega)] at hs
            cases hs
          have := habove j (by omega) hjlen
          rw [hkeys j s hs] at this
          omega
      · have hnone : lookupRecords d f = none := by
          refine lookupRecords_none ?_
          intro r hr
          obtain ⟨j, hj⟩ := List.mem_iff_get?.mp hr
          have hjlen : j < d.length := by
            by_contra hcon
            rw [List.get?_len_le (by omega)] at hj
            cases hj
          rcases Nat.lt_trichotomy j i2 with h | h | h
          · have := recordsWF_get?_le hwf h hj hx
            omega
          · subst h
            rw [hj] at hx
            cases hx
            omega
          · have := habove j (by omega) hjlen
            rw [hkeys j r hj] at this
            omega
        rw [hnone, Record.get.eq_def, if_neg (show ¬(x.start ≤ f ∧ f < x.finish) by omega)]

end GetLemmas

/-! ## Lemmas: `Record::extend` -/

section ExtendLemmas

variable {T : Type}

lemma constant_get (s f : Nat) (value : T) (i : Nat) :
    (Record.constant s f value).get i = if s ≤ i ∧ i < f then some value else none := by
  simp [Record.get, Record.start, Record.finish]

lemma var_get (s : Nat) (values : List T) (i : Nat) :
    (Record.var s values).get i =
      if s ≤ i ∧ i < s + values.length then values.get? (i - s) else none := by
  simp [Record.get, Record.start, Record.finish]

lemma lookupRecords_cons (r : Record T) (rest : List (Record T)) (i : Nat) :
    lookupRecords (r :: rest) i =
      if r.start ≤ i ∧ i < r.finish then r.get i else lookupRecords rest i := rfl

lemma lookupRecords_nil (i : Nat) : lookupRecords ([] : List (Record T)) i = none := rfl

lemma extend_eq_same [DecidableEq T] (s f : Nat) (v : T) :
    (Record.constant s f v).extend v = (.constant s (f + 1) v, none) := by
  simp [Record.extend]

lemma extend_eq_one [DecidableEq T] (s f : Nat) (value v : T) (hne : value ≠ v) (hlen : f - s = 1) :
    (Record.constant s f value).extend v = (.var s [value, v], none) := by
  simp [Record.extend, hne, hlen]

lemma extend_eq_long [DecidableEq T] (s f : Nat) (value v : T) (hne : value ≠ v) (hlen : f - s ≠ 1) :
    (Record.constant s f value).extend v =
      (.constant s f value, some (Record.new f v)) := by
  simp [Record.extend, hne, hlen]

lemma extend_eq_all_run [DecidableEq T] (s : Nat) (values : List T) (v : T)
    (h1 : Record.CONVERSION_THRESHOLD ≤ values.length)
    (h2 : Record.CONVERSION_THRESHOLD ≤
      (values.reverse.takeWhile (fun x => decide (x = v))).length + 1)
    (h3 : values.length = (values.reverse.takeWhile (fun x => decide (x = v))).length) :
    (Record.var s values).extend v =
      (.constant s (s + values.length + 1) v, none) := by
  simp only [Record.extend, h1, if_true, ← h3]
  rw [if_pos (h3 ▸ h2)]

lemma extend_eq_split_run [DecidableEq T] (s : Nat) (values : List T) (v : T)
    (h1 : Record.CONVERSION_THRESHOLD ≤ values.length)
    (h2 : Record.CONVERSION_THRESHOLD ≤
      (values.reverse.takeWhile (fun x => decide (x = v))).length + 1)
    (h3 : values.length ≠ (values.reverse.takeWhile (fun x => decide (x = v))).length) :
    (Record.var s values).extend v =
      (.var s (values.take (values.length -
          (values.reverse.takeWhile (fun x => decide (x = v))).length)),
        some (.constant
          (s + (values.length -
            (values.reverse.takeWhile (fun x => decide (x = v))).length))
          (s + (values.length -
            (values.reverse.takeWhile (fun x => decide (x = v))).length) +
            (values.reverse.takeWhile (fun x => decide (x = v))).length + 1) v)) := by
  simp [Record.extend, h1, h2, h3]

lemma extend_eq_push [DecidableEq T] (s : Nat) (values : List T) (v : T)
    (h : ¬(Record.CONVERSION_THRESHOLD ≤ values.length ∧
      Record.CONVERSION_THRESHOLD ≤
        (values.reverse.takeWhile (fun x => decide (x = v))).length + 1)) :
    (Record.var s values).extend v = Record.extendPush s values v := by
  by_cases h1 : Record.CONVERSION_THRESHOLD ≤ values.length
  · have h2 : ¬ Record.CONVERSION_THRESHOLD ≤
        (values.reverse.takeWhile (fun x => decide (x = v))).length + 1 := by
      intro hcon
      exact h ⟨h1, hcon⟩
    simp [Record.extend, h1, h2]
  · simp [Record.extend, h1]

lemma recordsWF_single (a : Record T) (h : a.start < a.finish) :
    recordsWF [a] = true := by
  simp [recordsWF, h]

lemma recordsWF_pair (a b : Record T) (h1 : a.start < a.finish) (h2 : a.finish ≤ b.start)
    (h3 : b.start < b.finish) : recordsWF [a, b] = true := by
  simp [recordsWF, h1, h2, h3]

/-- `Record::extend` is exactly "record one more frame at `finish`": the record(s) it
leaves behind start where the old record started, stay nonempty, ordered, end by
`finish + 1`, and look up to the old contents plus `finish ↦ v`. -/
lemma extend_spec [DecidableEq T] (r : Record T) (v : T) (hr : r.start < r.finish) :
    (r.extend v).1.start = r.start ∧
    (∀ x ∈ extendResultList r v, x.start < x.finish) ∧
    (∀ x ∈ extendResultList r v, r.start ≤ x.start) ∧
    (∀ x ∈ extendResultList r v, x.finish ≤ r.finish + 1) ∧
    recordsWF (extendResultList r v) = true ∧
    (∀ i, lookupRecords (extendResultList r v) i =
      if i = r.finish then some v else r.get i) := by
  cases r with
  | constant s f value =>
    simp only [Record.start, Record.finish] at hr ⊢
    by_cases hv : value = v
    · subst hv
      have hE : extendResultList (Record.constant s f value) value =
          [Record.constant s (f + 1) value] := by
        simp [extendResultList, extend_eq_same]
      rw [hE, extend_eq_same]
      refine ⟨rfl, ?_, ?_, ?_, ?_, ?_⟩
      · intro x hx
        simp only [List.mem_singleton] at hx
        subst hx
        simp only [Record.start, Record.finish]
        omega
      · intro x hx
        simp only [List.mem_singleton] at hx
        subst hx
        simp [Record.start]
      · intro x hx
        simp only [List.mem_singleton] at hx
        subst hx
        simp [Record.finish]
      · exact recordsWF_single _ (by simp only [Record.start, Record.finish]; omega)
      · intro i
        rw [lookupRecords_cons, lookupRecords_nil, constant_get, constant_get]
        simp only [Record.start, Record.finish]
        split_ifs <;> first | rfl | omega
    · by_cases hlen : f - s = 1
      · have hf : f = s + 1 := by omega
        have hE : extendResultList (Record.constant s f value) v =
            [Record.var s [value, v]] := by
          simp [extendResultList, extend_eq_one s f value v hv hlen]
        rw [hE, extend_eq_one s f value v hv hlen]
        refine ⟨rfl, ?_, ?_, ?_, ?_, ?_⟩
        · intro x hx
          simp only [List.mem_singleton] at hx
          subst hx
          simp only [Record.start, Record.finish, List.length_cons, List.length_nil]
          omega
        · intro x hx
          simp only [List.mem_singleton] at hx
          subst hx
          simp [Record.start]
        · intro x hx
          simp only [List.mem_singleton] at hx
          subst hx
          simp only [Record.finish, List.length_cons, List.length_nil]
          omega
        · exact recordsWF_single _ (by
            simp only [Record.start, Record.finish, List.length_cons, List.length_nil]
            omega)
        · intro i
          rw [lookupRecords_cons, lookupRecords_nil, var_get, constant_get]
          simp only [Record.start, Record.finish, List.length_cons, List.length_nil]
          split_ifs with ha hb hc
          · have h2 : i - s = 1 := by omega
            rw [h2]
            rfl
          · have h2 : i - s = 0 := by omega
            rw [h2]
            rfl
          · omega
          · omega
          · omega
          · rfl
      · have hE : extendResultList (Record.constant s f value) v =
            [Record.constant s f value, Record.constant f (f + 1) v] := by
          simp [extendResultList, extend_eq_long s f value v hv hlen, Record.new]
        rw [hE, extend_eq_long s f value v hv hlen]
        refine ⟨rfl, ?_, ?_, ?_, ?_, ?_⟩
        · intro x hx
          rcases List.mem_cons.mp hx with h | h
          · subst h; simpa [Record.start, Record.finish] using hr
          · simp only [List.mem_singleton] at h
            subst h
            simp [Record.start, Record.finish]
        · intro x hx
          rcases List.mem_cons.mp hx with h | h
          · subst h; simp [Record.start]
          · simp only [List.mem_singleton] at h
            subst h
            simp only [Record.start]
            omega
        · intro x hx
          rcases List.mem_cons.mp hx with h | h
          · subst h; simp only [Record.finish]; omega
          · simp only [List.mem_singleton] at h
            subst h
            simp [Record.finish]
        · exact recordsWF_pair _ _ (by simpa [Record.start, Record.finish] using hr)
            (by simp [Record.start, Record.finish]) (by simp [Record.start, Record.finish])
        · intro i
          rw [lookupRecords_cons, lookupRecords_cons, lookupRecords_nil, constant_get,
            constant_get]
          simp only [Record.start, Record.finish]
          split_ifs <;> first | rfl | omega
  | var s values =>
    simp only [Record.start, Record.finish] at hr ⊢
    have hvlen : 0 < values.length := by omega
    set count := (values.reverse.takeWhile (fun x => decide (x = v))).length with hcount
    have hcle : count ≤ values.length := by
      simpa using (List.takeWhile_sublist (l := values.reverse)
        (fun x => decide (x = v))).length_le
    have htrail : ∀ k, values.length - count ≤ k → k < values.length →
        values.get? k = some v := by
      intro k hk1 hk2
      obtain ⟨x, hx, hpx⟩ := trailing_run_prop values (fun x => decide (x = v)) hk1 hk2
      rw [hx, of_decide_eq_true hpx]
    by_cases h1 : Record.CONVERSION_THRESHOLD ≤ values.length
    · by_cases h2 : Record.CONVERSION_THRESHOLD ≤ count + 1
      · have hc4 : 4 ≤ count := by
          rw [Record.CONVERSION_THRESHOLD] at h2
          omega
        by_cases h3 : values.length = count
        · have hE : extendResultList (Record.var s values) v =
              [Record.constant s (s + values.length + 1) v] := by
            simp [extendResultList, extend_eq_all_run s values v h1 h2 h3]
          rw [hE, extend_eq_all_run s values v h1 h2 h3]
          refine ⟨rfl, ?_, ?_, ?_, ?_, ?_⟩
          · intro x hx
            simp only [List.mem_singleton] at hx
            subst hx
            simp only [Record.start, Record.finish]
            omega
          · intro x hx
            simp only [List.mem_singleton] at hx
            subst hx
            simp [Record.start]
          · intro x hx
            simp only [List.mem_singleton] at hx
            subst hx
            simp [Record.finish]
          · exact recordsWF_single _ (by simp only [Record.start, Record.finish]; omega)
          · intro i
            rw [lookupRecords_cons, lookupRecords_nil, constant_get, var_get]
            simp only [Record.start, Record.finish]
            split_ifs with ha hb hc
            · rfl
            · rw [htrail (i - s) (by omega) (by omega)]
            · omega
            · omega
            · omega
            · rfl
        · have hcltlen : count < values.length := by omega
          have hkeep : (values.take (values.length - count)).length =
              values.length - count := by
            rw [List.length_take]
            omega
          have hE : extendResultList (Record.var s values) v =
              [Record.var s (values.take (values.length - count)),
                Record.constant (s + (values.length - count))
                  (s + (values.length - count) + count + 1) v] := by
            simp [extendResultList, extend_eq_split_run s values v h1 h2 (by omega)]
          rw [hE, extend_eq_split_run s values v h1 h2 (by omega)]
          refine ⟨rfl, ?_, ?_, ?_, ?_, ?_⟩
          · intro x hx
            rcases List.mem_cons.mp hx with h | h
            · subst h
              simp only [Record.start, Record.finish, hkeep]
              omega
            · simp only [List.mem_singleton] at h
              subst h
              simp only [Record.start, Record.finish]
              omega
          · intro x hx
            rcases List.mem_cons.mp hx with h | h
            · subst h; simp [Record.start]
            · simp only [List.mem_singleton] at h
              subst h
              simp only [Record.start]
              omega
          · intro x hx
            rcases List.mem_cons.mp hx with h | h
            · subst h
              simp only [Record.finish, hkeep]
              omega
            · simp only [List.mem_singleton] at h
              subst h
              simp only [Record.finish]
              omega
          · exact recordsWF_pair _ _
              (by simp only [Record.start, Record.finish, hkeep]; omega)
              (by simp only [Record.start, Record.finish, hkeep]; omega)
              (by simp only [Record.start, Record.finish]; omega)
          · intro i
            rw [lookupRecords_cons, lookupRecords_cons, lookupRecords_nil, var_get,
              constant_get, var_get]
            simp only [Record.start, Record.finish, hkeep]
            split_ifs <;> try omega
            · exact List.get?_take (by omega)
            · rfl
            · rw [htrail (i - s) (by omega) (by omega)]
            · rfl
      · have hE0 : (Record.var s values).extend v = Record.extendPush s values v :=
          extend_eq_push s values v (by tauto)
        by_cases hmax : Record.MAXIMUM_RECORD_LENGTH < values.length
        · have hE : extendResultList (Record.var s values) v =
              [Record.var s values,
                Record.constant (s + values.length) (s + values.length + 1) v] := by
            rw [extendResultList, hE0, Record.extendPush, if_pos hmax]
            rfl
          have hfst : ((Record.var s values).extend v).1 = Record.var s values := by
            rw [hE0, Record.extendPush, if_pos hmax]
          rw [hE, hfst]
          refine ⟨rfl, ?_, ?_, ?_, ?_, ?_⟩
          · intro x hx
            rcases List.mem_cons.mp hx with h | h
            · subst h
              simp only [Record.start, Record.finish]
              omega
            · simp only [List.mem_singleton] at h
              subst h
              simp only [Record.start, Record.finish]
              omega
          · intro x hx
            rcases List.mem_cons.mp hx with h | h
            · subst h; simp [Record.start]
            · simp only [List.mem_singleton] at h
              subst h
              simp only [Record.start]
              omega
          · intro x hx
            rcases List.mem_cons.mp hx with h | h
            · subst h; simp only [Record.finish]; omega
            · simp only [List.mem_singleton] at h
              subst h
              simp only [Record.finish]
              omega
          · exact recordsWF_pair _ _
              (by simp only [Record.start, Record.finish]; omega)
              (by simp only [Record.start, Record.finish]; omega)
              (by simp only [Record.start, Record.finish]; omega)
          · intro i
            rw [lookupRecords_cons, lookupRecords_cons, lookupRecords_nil, var_get,
              constant_get]
            simp only [Record.start, Record.finish]
            split_ifs <;> first | rfl | omega
        · have hE : extendResultList (Record.var s values) v =
              [Record.var s (values ++ [v])] := by
            rw [extendResultList, hE0, Record.extendPush, if_neg hmax]
            rfl
          have hfst : ((Record.var s values).extend v).1 = Record.var s (values ++ [v]) := by
            rw [hE0, Record.extendPush, if_neg hmax]
          rw [hE, hfst]
          refine ⟨rfl, ?_, ?_, ?_, ?_, ?_⟩
          · intro x hx
            simp only [List.mem_singleton] at hx
            subst hx
            simp only [Record.start, Record.finish, List.length_append, List.length_cons,
              List.length_nil]
            omega
          · intro x hx
            simp only [List.mem_singleton] at hx
            subst hx
            simp [Record.start]
          · intro x hx
            simp only [List.mem_singleton] at hx
            subst hx
            simp only [Record.finish, List.length_append, List.length_cons, List.length_nil]
            omega
          · exact recordsWF_single _ (by
              simp only [Record.start, Record.finish, List.length_append, List.length_cons,
                List.length_nil]
              omega)
          · intro i
            rw [lookupRecords_cons, lookupRecords_nil, var_get, var_get]
            simp only [Record.start, Record.finish, List.length_append, List.length_cons,
              List.length_nil]
            split_ifs with ha hb hc
            · rw [List.get?_append_right (by omega : values.length <= i - s)]
              have h0 : i - s - values.length = 0 := by omega
              rw [h0]
              rfl
            · exact List.get?_append (by omega)
            · omega
            · omega
            · omega
            · rfl
    · have hE0 : (Record.var s values).extend v = Record.extendPush s values v :=
        extend_eq_push s values v (by tauto)
      have hmax : ¬ Record.MAXIMUM_RECORD_LENGTH < values.length := by
        rw [Record.MAXIMUM_RECORD_LENGTH]
        rw [Record.CONVERSION_THRESHOLD] at h1
        omega
      have hE : extendResultList (Record.var s values) v =
          [Record.var s (values ++ [v])] := by
        rw [extendResultList, hE0, Record.extendPush, if_neg hmax]
        rfl
      have hfst : ((Record.var s values).extend v).1 = Record.var s (values ++ [v]) := by
        rw [hE0, Record.extendPush, if_neg hmax]
      rw [hE, hfst]
      refine ⟨rfl, ?_, ?_, ?_, ?_, ?_⟩
      · intro x hx
        simp only [List.mem_singleton] at hx
        subst hx
        simp only [Record.start, Record.finish, List.length_append, List.length_cons,
          List.length_nil]
        omega
      · intro x hx
        simp only [List.mem_singleton] at hx
        subst hx
        simp [Record.start]
      · intro x hx
        simp only [List.mem_singleton] at hx
        subst hx
        simp only [Record.finish, List.length_append, List.length_cons, List.length_nil]
        omega
      · exact recordsWF_single _ (by
          simp only [Record.start, Record.finish, List.length_append, List.length_cons,
            List.length_nil]
          omega)
      · intro i
        rw [lookupRecords_cons, lookupRecords_nil, var_get, var_get]
        simp only [Record.start, Record.finish, List.length_append, List.length_cons,
          List.length_nil]
        split_ifs with ha hb hc
        · rw [List.get?_append_right (by omega : values.length <= i - s)]
          have h0 : i - s - values.length = 0 := by omega
          rw [h0]
          rfl
        · exact List.get?_append (by omega)
        · omega
        · omega
        · omega
        · rfl

end ExtendLemmas

/-! ## Lemmas: `History::try_insert` -/

section InsertLemmas

variable {T : Type}

lemma lookupRecords_single (r : Record T) (i : Nat) :
    lookupRecords [r] i = r.get i := by
  rw [lookupRecords_cons, lookupRecords_nil]
  by_cases hc : r.start ≤ i ∧ i < r.finish
  · rw [if_pos hc]
  · rw [if_neg hc, Record.get.eq_def, if_neg hc]

lemma extendAt_fst [DecidableEq T] (r : Record T) (v : T) (rest : List (Record T)) :
    (History.extendAt r v rest).1 = some () := rfl

lemma extendAt_snd [DecidableEq T] (r : Record T) (v : T) (rest : List (Record T)) :
    (History.extendAt r v rest).2 = extendResultList r v ++ rest := by
  cases h : (r.extend v).2 with
  | none => simp [History.extendAt, extendResultList, h]
  | some nr => simp [History.extendAt, extendResultList, h]

lemma extendResultList_length [DecidableEq T] (r : Record T) (v : T) :
    (extendResultList r v).length ≤ 2 := by
  rw [extendResultList]
  cases (r.extend v).2 <;> simp

lemma tryInsertAux_cons [DecidableEq T] (f : Nat) (v : T) (r : Record T)
    (rest : List (Record T)) :
    History.tryInsertAux f v (r :: rest) =
      if r.finish < f then
        ((History.tryInsertAux f v rest).1, r :: (History.tryInsertAux f v rest).2)
      else if f < r.start then
        (some (), Record.new f v :: r :: rest)
      else if r.finish = f then
        match rest with
        | next :: rest2 =>
          if next.start ≤ f then (none, r :: next :: rest2)
          else History.extendAt r v (next :: rest2)
        | [] => History.extendAt r v []
      else if r.start ≤ f ∧ f < r.finish then
        (none, r :: rest)
      else ((History.tryInsertAux f v rest).1, r :: (History.tryInsertAux f v rest).2) := by
  rw [History.tryInsertAux.eq_def]

/-- Every call of the `try_insert` loop preserves the history invariant, keeps every
produced record's start at or after `min f (an existing start)`, and adds at most one
record. -/
lemma tryInsertAux_preserves [DecidableEq T] (f : Nat) (v : T) :
    ∀ d : List (Record T), recordsWF d = true →
      recordsWF (History.tryInsertAux f v d).2 = true ∧
      (∀ x ∈ (History.tryInsertAux f v d).2,
        f ≤ x.start ∨ ∃ y ∈ d, y.start ≤ x.start) ∧
      (History.tryInsertAux f v d).2.length ≤ d.length + 1 := by
  intro d
  induction d with
  | nil =>
    intro _
    refine ⟨recordsWF_single _ (by simp [Record.new, Record.start, Record.finish]),
      ?_, by simp [History.tryInsertAux]⟩
    intro x hx
    simp only [History.tryInsertAux, List.mem_singleton] at hx
    left
    subst hx
    simp [Record.new, Record.start]
  | cons r rest ih =>
    intro hwf
    have hwfr := (recordsWF_cons r rest).mp hwf
    by_cases h1 : r.finish < f
    · have hstep : (History.tryInsertAux f v (r :: rest)).2 =
          r :: (History.tryInsertAux f v rest).2 := by
        rw [tryInsertAux_cons, if_pos h1]
      obtain ⟨ih1, ih2, ih3⟩ := ih hwfr.2.2
      rw [hstep]
      refine ⟨?_, ?_, by simpa using ih3⟩
      · refine recordsWF_cons_of _ _ hwfr.1 ?_ ih1
        intro z hz
        have hzmem : z ∈ (History.tryInsertAux f v rest).2 := List.mem_of_mem_head? hz
        rcases ih2 z hzmem with h | ⟨y, hy, hyz⟩
        · omega
        · have := recordsWF_le_all hwf y hy
          omega
      · intro x hx
        rcases List.mem_cons.mp hx with h | h
        · subst h
          exact Or.inr ⟨x, List.mem_cons_self x rest, le_refl _⟩
        · rcases ih2 x h with h2 | ⟨y, hy, hyx⟩
          · exact Or.inl h2
          · exact Or.inr ⟨y, List.mem_cons_of_mem r hy, hyx⟩
    · by_cases h2 : f < r.start
      · have hstep : (History.tryInsertAux f v (r :: rest)).2 =
            Record.new f v :: r :: rest := by
          rw [tryInsertAux_cons, if_neg h1, if_pos h2]
        rw [hstep]
        refine ⟨?_, ?_, by simp⟩
        · refine recordsWF_cons_of _ _ (by simp [Record.new, Record.start, Record.finish])
            ?_ hwf
          intro z hz
          simp only [List.head?_cons, Option.some.injEq] at hz
          subst hz
          simp only [Record.new, Record.finish]
          omega
        · intro x hx
          rcases List.mem_cons.mp hx with h | h
          · subst h
            exact Or.inl (by simp [Record.new, Record.start])
          · exact Or.inr ⟨x, h, le_refl _⟩
      · by_cases h3 : r.finish = f
        · cases rest with
          | nil =>
            have hstep : History.tryInsertAux f v [r] = History.extendAt r v [] := by
              rw [tryInsertAux_cons, if_neg h1, if_neg h2, if_pos h3]
            obtain ⟨hs1, hs2, hs3, hs4, hs5, hs6⟩ := extend_spec r v hwfr.1
            rw [hstep, extendAt_snd, List.append_nil]
            refine ⟨hs5, ?_, ?_⟩
            · intro x hx
              exact Or.inr ⟨r, List.mem_singleton_self r, hs3 x hx⟩
            · calc (extendResultList r v).length ≤ 2 := extendResultList_length r v
              _ ≤ [r].length + 1 := by simp
          | cons next rest2 =>
            by_cases h4 : next.start ≤ f
            · have hstep : (History.tryInsertAux f v (r :: next :: rest2)).2 =
                  r :: next :: rest2 := by
                rw [tryInsertAux_cons, if_neg h1, if_neg h2, if_pos h3]
                simp [h4]
              rw [hstep]
              exact ⟨hwf, fun x hx => Or.inr ⟨x, hx, le_refl _⟩, by simp⟩
            · have hstep : (History.tryInsertAux f v (r :: next :: rest2)).2 =
                  (History.extendAt r v (next :: rest2)).2 := by
                rw [tryInsertAux_cons, if_neg h1, if_neg h2, if_pos h3]
                simp [h4]
              obtain ⟨hs1, hs2, hs3, hs4, hs5, hs6⟩ := extend_spec r v hwfr.1
              rw [hstep, extendAt_snd]
              refine ⟨?_, ?_, ?_⟩
              · refine recordsWF_append hs5 hwfr.2.2 hs4 ?_
                intro z hz
                simp only [List.head?_cons, Option.some.injEq] at hz
                subst hz
                omega
              · intro x hx
                rcases List.mem_append.mp hx with h | h
                · exact Or.inr ⟨r, List.mem_cons_self r _, hs3 x h⟩
                · exact Or.inr ⟨x, List.mem_cons_of_mem r h, le_refl _⟩
              · rw [List.length_append]
                have := extendResultList_length r v
                simp only [List.length_cons]
                omega
        · have hstep : (History.tryInsertAux f v (r :: rest)).2 = r :: rest := by
            rw [tryInsertAux_cons, if_neg h1, if_neg h2, if_neg h3,
              if_pos (show r.start ≤ f ∧ f < r.finish by omega)]
          rw [hstep]
          exact ⟨hwf, fun x hx => Or.inr ⟨x, hx, le_refl _⟩, by simp⟩

/-- Inserting at a frame past every stored record succeeds and merely adds `f ↦ v`
to the lookup function. -/
lemma tryInsertAux_append [DecidableEq T] (f : Nat) (v : T) :
    ∀ d : List (Record T), recordsWF d = true → (∀ x ∈ d, x.finish ≤ f) →
      (History.tryInsertAux f v d).1 = some () ∧
      recordsWF (History.tryInsertAux f v d).2 = true ∧
      (∀ x ∈ (History.tryInsertAux f v d).2, x.finish ≤ f + 1) ∧
      (∀ i, lookupRecords (History.tryInsertAux f v d).2 i =
        if i = f then some v else lookupRecords d i) := by
  intro d
  induction d with
  | nil =>
    intro _ _
    refine ⟨rfl, recordsWF_single _ (by simp [Record.new, Record.start, Record.finish]),
      ?_, ?_⟩
    · intro x hx
      simp only [History.tryInsertAux, List.mem_singleton] at hx
      subst hx
      simp [Record.new, Record.finish]
    · intro i
      show lookupRecords [Record.new f v] i = _
      rw [lookupRecords_single]
      simp only [Record.new]
      rw [constant_get, lookupRecords_nil]
      split_ifs <;> first | rfl | omega
  | cons r rest ih =>
    intro hwf hfin
    have hwfr := (recordsWF_cons r rest).mp hwf
    have hrf : r.finish ≤ f := hfin r (List.mem_cons_self r rest)
    by_cases h1 : r.finish < f
    · have hstep1 : (History.tryInsertAux f v (r :: rest)).1 =
          (History.tryInsertAux f v rest).1 := by
        rw [tryInsertAux_cons, if_pos h1]
      have hstep : (History.tryInsertAux f v (r :: rest)).2 =
          r :: (History.tryInsertAux f v rest).2 := by
        rw [tryInsertAux_cons, if_pos h1]
      obtain ⟨ih1, ih2, ih3, ih4⟩ := ih hwfr.2.2
        (fun x hx => hfin x (List.mem_cons_of_mem r hx))
      obtain ⟨pr1, pr2, pr3⟩ := tryInsertAux_preserves f v rest hwfr.2.2
      rw [hstep1, hstep]
      refine ⟨ih1, ?_, ?_, ?_⟩
      · refine recordsWF_cons_of _ _ hwfr.1 ?_ ih2
        intro z hz
        have hzmem : z ∈ (History.tryInsertAux f v rest).2 := List.mem_of_mem_head? hz
        rcases pr2 z hzmem with h | ⟨y, hy, hyz⟩
        · omega
        · have := recordsWF_le_all hwf y hy
          omega
      · intro x hx
        rcases List.mem_cons.mp hx with h | h
        · subst h
          omega
        · exact ih3 x h
      · intro i
        rw [lookupRecords_cons, lookupRecords_cons, ih4 i]
        by_cases hif : i = f
        · subst hif
          rw [if_neg (show ¬(r.start ≤ i ∧ i < r.finish) by omega), if_pos rfl,
            if_pos rfl]
        · rw [if_neg hif, if_neg hif]
    · have hrefin : r.finish = f := by omega
      cases rest with
      | cons next rest2 =>
        exfalso
        have hnext1 : r.finish ≤ next.start :=
          recordsWF_le_all hwf next (List.mem_cons_self next rest2)
        have hnext2 : next.start < next.finish :=
          recordsWF_nonempty hwf next (List.mem_cons_of_mem r (List.mem_cons_self next rest2))
        have hnext3 : next.finish ≤ f :=
          hfin next (List.mem_cons_of_mem r (List.mem_cons_self next rest2))
        omega
      | nil =>
        have hstep : History.tryInsertAux f v [r] = History.extendAt r v [] := by
          rw [tryInsertAux_cons, if_neg h1,
            if_neg (show ¬ f < r.start by have := hwfr.1; omega), if_pos hrefin]
        obtain ⟨hs1, hs2, hs3, hs4, hs5, hs6⟩ := extend_spec r v hwfr.1
        rw [hstep, extendAt_fst, extendAt_snd, List.append_nil]
        refine ⟨rfl, hs5, ?_, ?_⟩
        · intro x hx
          have := hs4 x hx
          omega
        · intro i
          rw [hs6 i, lookupRecords_single, hrefin]

end InsertLemmas

/-! ## Lemmas: folding strictly increasing insertions -/

section FoldLemmas

variable {T : Type}

lemma chain'_head_lt_all :
    ∀ {ps : List (Nat × T)} {p : Nat × T},
      List.Chain' (fun a b => a.1 < b.1) (p :: ps) → ∀ q ∈ ps, p.1 < q.1 := by
  intro ps
  induction ps with
  | nil => simp
  | cons q ps2 ih =>
    intro p hc x hx
    rw [List.chain'_cons] at hc
    rcases List.mem_cons.mp hx with h | h
    · exact h ▸ hc.1
    · exact lt_trans hc.1 (ih hc.2 x h)

lemma lookupPairs_cons (p : Nat × T) (rest : List (Nat × T)) (i : Nat) :
    lookupPairs (p :: rest) i =
      if p.1 = i then some p.2 else lookupPairs rest i := by
  by_cases h : p.1 = i <;> simp [lookupPairs, List.find?, h]

lemma lookupPairs_none (ps : List (Nat × T)) (i : Nat)
    (h : ∀ q ∈ ps, q.1 ≠ i) : lookupPairs ps i = none := by
  rw [lookupPairs, List.find?_eq_none.mpr]
  · rfl
  · intro x hx
    simpa using h x hx

lemma insertAll_cons [DecidableEq T] (p : Nat × T) (rest : List (Nat × T)) (h : History T) :
    insertAll (p :: rest) h =
      ((h.tryInsert p.1 p.2).1.isSome && (insertAll rest (h.tryInsert p.1 p.2).2).1,
        (insertAll rest (h.tryInsert p.1 p.2).2).2) := by
  rw [insertAll.eq_def]

lemma insertAll_spec [DecidableEq T] :
    ∀ (ps : List (Nat × T)) (h : History T) (bound : Nat),
      recordsWF h.data = true → (∀ x ∈ h.data, x.finish ≤ bound) →
      List.Chain' (fun a b => a.1 < b.1) ps → (∀ p ∈ ps, bound ≤ p.1) →
      (insertAll ps h).1 = true ∧
      recordsWF (insertAll ps h).2.data = true ∧
      (insertAll ps h).2.data.length ≤ h.data.length + ps.length ∧
      (∀ i, lookupRecords (insertAll ps h).2.data i =
        (lookupPairs ps i).or (lookupRecords h.data i)) := by
  intro ps
  induction ps with
  | nil =>
    intro h bound hwf hfin _ _
    refine ⟨rfl, hwf, by simp [insertAll], ?_⟩
    intro i
    have : lookupPairs ([] : List (Nat × T)) i = none := rfl
    rw [this]
    rfl
  | cons p rest ih =>
    intro h bound hwf hfin hchain hge
    have hfinp : ∀ x ∈ h.data, x.finish ≤ p.1 := by
      intro x hx
      have := hfin x hx
      have := hge p (List.mem_cons_self p rest)
      omega
    obtain ⟨a1, a2, a3, a4⟩ := tryInsertAux_append p.1 p.2 h.data hwf hfinp
    obtain ⟨_, _, pr3⟩ := tryInsertAux_preserves p.1 p.2 h.data hwf
    have hd2 : (h.tryInsert p.1 p.2).2.data = (History.tryInsertAux p.1 p.2 h.data).2 := rfl
    have hd1 : (h.tryInsert p.1 p.2).1 = (History.tryInsertAux p.1 p.2 h.data).1 := rfl
    have hrest1 : ∀ q ∈ rest, p.1 + 1 ≤ q.1 := by
      intro q hq
      have := chain'_head_lt_all hchain q hq
      omega
    obtain ⟨b1, b2, b3, b4⟩ := ih (h.tryInsert p.1 p.2).2 (p.1 + 1)
      (hd2 ▸ a2) (hd2 ▸ a3) (List.Chain'.tail hchain) hrest1
    rw [insertAll_cons]
    refine ⟨?_, b2, ?_, ?_⟩
    · simp only [hd1, a1, b1, Option.isSome_some, Bool.and_self]
    · simp only [List.length_cons]
      rw [hd2] at b3
      omega
    · intro i
      simp only []
      rw [b4 i, lookupPairs_cons]
      have ha4 : lookupRecords (h.tryInsert p.1 p.2).2.data i =
          if i = p.1 then some p.2 else lookupRecords h.data i := hd2 ▸ a4 i
      rw [ha4]
      by_cases hip : p.1 = i
      · subst hip
        have hnone : lookupPairs rest p.1 = none := by
          refine lookupPairs_none rest p.1 ?_
          intro q hq
          have := hrest1 q hq
          omega
        rw [hnone, if_pos rfl, if_pos rfl]
        rfl
      · rw [if_neg hip, if_neg (fun hc => hip hc.symm)]

end FoldLemmas

/-! ## Claim theorems: the History store -/

/-- C1: for every sequence of (frame, value) pairs inserted into an initially empty
`History` via `try_insert` in strictly increasing frame order, every insertion
succeeds, every subsequent `get(f)` for an inserted frame `f` returns exactly the
value inserted at `f`, and `get(f)` returns `none` for every frame never inserted —
regardless of how values were grouped into Constant or Variable records internally. -/
theorem c1_history_roundtrip {T : Type} [DecidableEq T] (ps : List (Nat × T))
    (hinc : List.Chain' (fun a b => a.1 < b.1) ps) (hlen : ps.length < USIZE_SIZE) :
    (insertAll ps History.empty).1 = true ∧
    ∀ f, (insertAll ps History.empty).2.get f = lookupPairs ps f := by
  obtain ⟨h1, h2, h3, h4⟩ := insertAll_spec ps History.empty 0 rfl
    (by simp [History.empty]) hinc (by simp)
  refine ⟨h1, ?_⟩
  intro f
  have hlen2 : (insertAll ps (History.empty (T := T))).2.data.length < USIZE_SIZE := by
    have h0 : (History.empty (T := T)).data.length = 0 := rfl
    omega
  have hget : (insertAll ps (History.empty (T := T))).2.get f =
      lookupRecords (insertAll ps History.empty).2.data f :=
    history_get_eq_lookup (insertAll ps History.empty).2.data h2 hlen2 f
  rw [hget, h4 f]
  have : lookupRecords (History.empty (T := T)).data f = none := rfl
  rw [this]
  cases lookupPairs ps f <;> rfl

/-- Witness for C1 at a concrete insertion sequence. -/
theorem c1_history_roundtrip_witness :
    (insertAll [(0, 10), (1, 10), (3, 7)] (History.empty (T := Nat))).1 = true ∧
    (insertAll [(0, 10), (1, 10), (3, 7)] (History.empty (T := Nat))).2.get 1 = some 10 ∧
    (insertAll [(0, 10), (1, 10), (3, 7)] (History.empty (T := Nat))).2.get 3 = some 7 ∧
    (insertAll [(0, 10), (1, 10), (3, 7)] (History.empty (T := Nat))).2.get 2 = none := by
  have h := c1_history_roundtrip (T := Nat) [(0, 10), (1, 10), (3, 7)]
    (by norm_num [List.chain'_cons, List.chain'_singleton]) (by decide)
  exact ⟨h.1, by rw [h.2 1]; rfl, by rw [h.2 3]; rfl, by rw [h.2 2]; rfl⟩

lemma tryInsertAux_covered {T : Type} [DecidableEq T] (f : Nat) (v : T) :
    ∀ d : List (Record T), recordsWF d = true →
      (∃ r ∈ d, r.start ≤ f ∧ f < r.finish) →
      History.tryInsertAux f v d = (none, d) := by
  intro d
  induction d with
  | nil =>
    rintro _ ⟨r, hr, _⟩
    simp at hr
  | cons r rest ih =>
    rintro hwf ⟨x, hx, hxc⟩
    have hwfr := (recordsWF_cons r rest).mp hwf
    rcases List.mem_cons.mp hx with hxr | hxrest
    · subst hxr
      rw [tryInsertAux_cons, if_neg (show ¬ x.finish < f by omega),
        if_neg (show ¬ f < x.start by omega), if_neg (show ¬ x.finish = f by omega),
        if_pos (show x.start ≤ f ∧ f < x.finish by omega)]
    · have hle : r.finish ≤ x.start := recordsWF_le_all hwf x hxrest
      by_cases h1 : r.finish < f
      · rw [tryInsertAux_cons, if_pos h1, ih hwfr.2.2 ⟨x, hxrest, hxc⟩]
      · have h3 : r.finish = f := by omega
        cases rest with
        | nil => simp at hxrest
        | cons next rest2 =>
          have hnext : next.start ≤ f := by
            rcases List.mem_cons.mp hxrest with h | h
            · subst h; omega
            · have ha := recordsWF_le_all hwfr.2.2 x h
              have hb := recordsWF_nonempty hwfr.2.2 next (List.mem_cons_self _ _)
              omega
          rw [tryInsertAux_cons, if_neg h1, if_neg (show ¬ f < r.start by omega),
            if_pos h3]
          simp [hnext]

/-- C6: for every invariant-satisfying `History` and every frame `f` inside the
half-open range of an existing record (which subsumes the case where `f` equals a
record's finish while the following record starts at or before `f`, since then the
following record's range contains `f`), `try_insert(f, v)` fails and leaves the whole
history unchanged. -/
theorem c6_covered_insert_fails {T : Type} [DecidableEq T] (h : History T) (f : Nat)
    (v : T) (hwf : recordsWF h.data = true)
    (hcov : ∃ r ∈ h.data, r.start ≤ f ∧ f < r.finish) :
    h.tryInsert f v = (none, h) := by
  have hthis := tryInsertAux_covered f v h.data hwf hcov
  simp only [History.tryInsert, hthis]

/-- Witness for C6 at a concrete covered frame. -/
theorem c6_covered_insert_fails_witness :
    (History.mk [Record.constant 0 3 (1 : Nat)]).tryInsert 1 9 =
      (none, History.mk [Record.constant 0 3 (1 : Nat)]) :=
  c6_covered_insert_fails (History.mk [Record.constant 0 3 (1 : Nat)]) 1 9
    (by decide) (by decide)

/-- C7: extending the record at the insertion frame obeys exactly these rules:
an equal value only bumps a Constant record's finish; a different value converts a
length-1 Constant record in place into a Variable record holding both values; a
different value on a Constant record of length greater than 1 leaves it untouched and
splits off a fresh 1-long Constant record starting at the insertion frame. -/
theorem c7_constant_extend_rules {T : Type} [DecidableEq T] (s f : Nat) (v e : T) :
    (Record.extend (.constant s f v) v = (.constant s (f + 1) v, none)) ∧
    (v ≠ e → f - s = 1 → Record.extend (.constant s f v) e = (.var s [v, e], none)) ∧
    (v ≠ e → 1 < f - s →
      Record.extend (.constant s f v) e = (.constant s f v, some (Record.new f e))) := by
  refine ⟨extend_eq_same s f v, ?_, ?_⟩
  · intro hne hlen
    exact extend_eq_one s f v e hne hlen
  · intro hne hlen
    exact extend_eq_long s f v e hne (by omega)

/-- Witness for C7 at concrete records. -/
theorem c7_constant_extend_rules_witness :
    Record.extend (.constant 4 6 (3 : Nat)) 3 = (.constant 4 7 3, none) ∧
    Record.extend (.constant 4 5 (3 : Nat)) 8 = (.var 4 [3, 8], none) ∧
    Record.extend (.constant 4 6 (3 : Nat)) 8 = (.constant 4 6 3, some (Record.new 6 8)) :=
  ⟨(c7_constant_extend_rules 4 6 3 3).1,
    (c7_constant_extend_rules 4 5 3 8).2.1 (by decide) (by decide),
    (c7_constant_extend_rules 4 6 3 8).2.2 (by decide) (by decide)⟩

/-- C8: every `try_insert` call preserves the History invariant (records in ascending
start order with pairwise non-overlapping, nonempty ranges), and consequently `get`'s
binary search on any invariant-satisfying history — including the updated one —
returns precisely what the linear scan for the unique record containing the queried
frame returns. -/
theorem c8_invariant_preserved {T : Type} [DecidableEq T] (h : History T) (f : Nat)
    (v : T) (hwf : recordsWF h.data = true) (hlen : h.data.length + 1 < USIZE_SIZE) :
    recordsWF (h.tryInsert f v).2.data = true ∧
    (∀ i, (h.tryInsert f v).2.get i = lookupRecords (h.tryInsert f v).2.data i) ∧
    (∀ i, h.get i = lookupRecords h.data i) := by
  obtain ⟨p1, p2, p3⟩ := tryInsertAux_preserves f v h.data hwf
  refine ⟨p1, ?_, ?_⟩
  · intro i
    exact history_get_eq_lookup (History.tryInsertAux f v h.data).2 p1 (by omega) i
  · intro i
    exact history_get_eq_lookup h.data hwf (by omega) i

/-- Witness for C8 at a concrete history and insertion. -/
theorem c8_invariant_preserved_witness :
    recordsWF ((History.mk [Record.constant 0 2 (5 : Nat)]).tryInsert 7 9).2.data = true ∧
    ((History.mk [Record.constant 0 2 (5 : Nat)]).tryInsert 7 9).2.get 1 =
      lookupRecords ((History.mk [Record.constant 0 2 (5 : Nat)]).tryInsert 7 9).2.data 1 := by
  have h := c8_invariant_preserved (History.mk [Record.constant 0 2 (5 : Nat)]) 7 9
    (by decide) (by decide)
  exact ⟨h.1, h.2.1 1⟩

/-! ## Claim theorems: tile grid and pixels -/

/-- C9: the light grid's empty/default cell value is `Solid`, which blocks light and
motion, and reading any index outside the grid's current bounds through the `Index`
impl (a `&self` read, hence non-mutating) returns that blocking `Solid` value. -/
theorem c9_out_of_bounds_is_solid (g : TileGrid Pixel) (x y : Int)
    (hout : g.bounds.containsPoint x y = false) :
    g.index x y = Pixel.solid ∧
    Empty.empty (T := Pixel) = Pixel.solid ∧
    Empty.default (T := Pixel) = Pixel.solid ∧
    Pixel.solid.blocksLight = true ∧ Pixel.solid.blocksMotion = true := by
  refine ⟨?_, rfl, rfl, rfl, rfl⟩
  have hnone : g.linearIndexOf x y = none := by
    simp only [TileGrid.linearIndexOf]
    split_ifs with h1 h2
    · exfalso
      have hcontains : g.bounds.containsPoint x y = true := by
        rw [TileRect.containsPoint]
        simp only [TileRect.left, TileRect.right, TileRect.top, TileRect.bottom,
          Bool.and_eq_true, decide_eq_true_eq]
        omega
      rw [hcontains] at hout
      cases hout
    · rfl
    · rfl
  rw [TileGrid.index, hnone]
  rfl

/-- Witness for C9 at a concrete grid and out-of-bounds index. -/
theorem c9_out_of_bounds_is_solid_witness :
    TileGrid.index (⟨⟨0, 0, 2, 2⟩, [Pixel.none, Pixel.none, Pixel.none, Pixel.none]⟩ :
        TileGrid Pixel) 10 0 = Pixel.solid ∧
    Empty.empty (T := Pixel) = Pixel.solid ∧
    Empty.default (T := Pixel) = Pixel.solid ∧
    Pixel.solid.blocksLight = true ∧ Pixel.solid.blocksMotion = true :=
  c9_out_of_bounds_is_solid
    (⟨⟨0, 0, 2, 2⟩, [Pixel.none, Pixel.none, Pixel.none, Pixel.none]⟩ : TileGrid Pixel)
    10 0 (by decide)

set_option maxRecDepth 4000 in
/-- C5 (code bug evidence): `TileGrid::expand_to_fit_bounds` never reads its
rectangle parameter — the source's first line `let mut bounds = self.bounds;`
shadows it — so on a 1×1 grid at the origin it reports no growth and leaves bounds
that still exclude the requested rectangle at (5,5); the sibling
`expand_to_fit_index`, which does use its parameter, grows the bounds to include
(5,5) and reports growth, showing the intended contract. -/
theorem c5_expand_to_fit_bounds_ignores_parameter :
    TileGrid.expandToFitBounds (⟨⟨0, 0, 1, 1⟩, [Pixel.none]⟩ : TileGrid Pixel)
        ⟨5, 5, 1, 1⟩ =
      (false, ⟨⟨0, 0, 1, 1⟩, [Pixel.none]⟩) ∧
    (TileGrid.expandToFitBounds (⟨⟨0, 0, 1, 1⟩, [Pixel.none]⟩ : TileGrid Pixel)
        ⟨5, 5, 1, 1⟩).2.bounds.containsPoint 5 5 = false ∧
    (TileGrid.expandToFitIndex (⟨⟨0, 0, 1, 1⟩, [Pixel.none]⟩ : TileGrid Pixel) 5 5).1 =
      true ∧
    (TileGrid.expandToFitIndex (⟨⟨0, 0, 1, 1⟩, [Pixel.none]⟩ : TileGrid Pixel)
        5 5).2.bounds.containsPoint 5 5 = true := by
  exact ⟨rfl, rfl, rfl, rfl⟩

/-! ## Claim theorems: corner extraction -/

/-- C4 counterexample: the claimed classification fails at the neighborhood whose
single blocking cell is the northwest one — `from_neighborhood` yields
`ConvexSouthEast`, whose outward diagonal (1, 1) points away from, not toward, the
blocking cell at (-1, -1). -/
theorem c4_corner_claim_false : ¬ c4ClaimStatement := by
  intro h
  have h1 := ((h ⟨true, false, false, false⟩).2.2.1 (by decide) Cell2x2.nw (by decide)).2
    CornerDirection.convexSouthEast (by decide)
  exact absurd h1.2 (by decide)

set_option synthInstance.maxHeartbeats 1000000 in
set_option synthInstance.maxSize 2000 in
set_option maxHeartbeats 2000000 in
/-- C4 amended: for every 2×2 neighborhood, corner extraction emits no corner when
all four cells agree or exactly two edge-adjacent cells block; exactly one convex
corner when exactly one cell blocks, oriented toward the open cell diagonally
opposite the blocking cell (i.e. away from the blocker); exactly one concave corner
oriented toward the single open cell when exactly three block; and exactly two
concave corners in the diagonally-opposite (checkerboard) case. -/
theorem c4_corner_classification :
    ∀ n : Neighborhood,
      ((n.blockedCount = 0 ∨ n.blockedCount = 4) →
        CornerDirection.fromNeighborhood n = []) ∧
      ((n.blockedCount = 2 ∧ n.checkerboard = false) →
        CornerDirection.fromNeighborhood n = []) ∧
      (n.blockedCount = 1 → ∀ cell : Cell2x2, n.blocked cell = true →
        (CornerDirection.fromNeighborhood n).length = 1 ∧
        ∀ d ∈ CornerDirection.fromNeighborhood n,
          d.isConcave = false ∧ d.out = (-(cell.dir.1), -(cell.dir.2))) ∧
      (n.blockedCount = 3 → ∀ cell : Cell2x2, n.blocked cell = false →
        (CornerDirection.fromNeighborhood n).length = 1 ∧
        ∀ d ∈ CornerDirection.fromNeighborhood n,
          d.isConcave = true ∧ d.out = cell.dir) ∧
      (n.checkerboard = true →
        (CornerDirection.fromNeighborhood n).length = 2 ∧
        ∀ d ∈ CornerDirection.fromNeighborhood n, d.isConcave = true) := by
  intro n
  rcases n with ⟨a, b, c, d⟩
  revert a b c d
  decide

/-- Witness for the amended C4 at the single-northwest-blocker neighborhood. -/
theorem c4_corner_classification_witness :
    (CornerDirection.fromNeighborhood ⟨true, false, false, false⟩).length = 1 ∧
    CornerDirection.convexSouthEast.isConcave = false ∧
    CornerDirection.convexSouthEast.out = (-(Cell2x2.nw.dir.1), -(Cell2x2.nw.dir.2)) := by
  have h := (c4_corner_classification ⟨true, false, false, false⟩).2.2.1 (by decide)
    Cell2x2.nw (by decide)
  exact ⟨h.1, (h.2 CornerDirection.convexSouthEast (by decide)).1,
    (h.2 CornerDirection.convexSouthEast (by decide)).2⟩

/-! ## Lemmas: the Recording-state paradox window -/

section ParadoxLemmas

variable {P : Type}

lemma cmpParadox_none_none : cmpParadox (P := P) Option.none Option.none = .eq := rfl

lemma cmpParadox_none_some (qb : ℚ) (pb : P) :
    cmpParadox Option.none (some (qb, pb)) = .lt := rfl

lemma cmpParadox_some_none (qa : ℚ) (pa : P) :
    cmpParadox (some (qa, pa)) Option.none = .gt := rfl

lemma cmpParadox_some_some (qa : ℚ) (pa : P) (qb : ℚ) (pb : P) :
    cmpParadox (some (qa, pa)) (some (qb, pb)) =
      if qa < qb then .lt else if qb < qa then .gt else .eq := rfl

lemma cmpParadox_gt_iff_lt {a b : Option (ℚ × P)} :
    cmpParadox a b = .gt ↔ cmpParadox b a = .lt := by
  rcases a with _ | ⟨qa, pa⟩ <;> rcases b with _ | ⟨qb, pb⟩
  · rw [cmpParadox_none_none]
    decide
  · rw [cmpParadox_none_some, cmpParadox_some_none]
    decide
  · rw [cmpParadox_some_none, cmpParadox_none_some]
    decide
  · rw [cmpParadox_some_some, cmpParadox_some_some]
    rcases lt_trichotomy qa qb with h | h | h
    · rw [if_pos h, if_neg (lt_asymm h), if_pos h]
      decide
    · subst h
      rw [if_neg (lt_irrefl qa), if_neg (lt_irrefl qa)]
      decide
    · rw [if_neg (lt_asymm h), if_pos h, if_pos h]
      decide

lemma minBy_fold_congr :
    (fun (acc y : Option (ℚ × P)) => if cmpParadox acc y = .gt then y else acc) =
      (fun acc y => if cmpParadox y acc = .lt then y else acc) := by
  funext acc y
  by_cases h : cmpParadox y acc = .lt
  · rw [if_pos h, if_pos (cmpParadox_gt_iff_lt.mpr h)]
  · rw [if_neg h, if_neg fun hg => h (cmpParadox_gt_iff_lt.mp hg)]

lemma cmpParadox_self_not_lt (a : Option (ℚ × P)) : cmpParadox a a ≠ .lt := by
  rcases a with _ | ⟨q, p⟩
  · rw [cmpParadox_none_none]
    decide
  · rw [cmpParadox_some_some]
    rw [if_neg (lt_irrefl q), if_neg (lt_irrefl q)]
    decide

lemma cmpParadox_some_some_lt_iff {qa qb : ℚ} {pa pb : P} :
    cmpParadox (some (qa, pa)) (some (qb, pb)) = .lt ↔ qa < qb := by
  rw [cmpParadox_some_some]
  split_ifs with h1 h2
  · simp [h1]
  · constructor
    · intro hcon
      cases hcon
    · intro hcon
      exact absurd hcon h1
  · constructor
    · intro hcon
      cases hcon
    · intro hcon
      exact absurd hcon h1

lemma cmpParadox_trans {a b c : Option (ℚ × P)} (h1 : cmpParadox a b = .lt)
    (h2 : cmpParadox b c = .lt) : cmpParadox a c = .lt := by
  rcases a with _ | ⟨qa, pa⟩ <;> rcases b with _ | ⟨qb, pb⟩ <;> rcases c with _ | ⟨qc, pc⟩
  · rw [cmpParadox_none_none] at h1
    cases h1
  · rw [cmpParadox_none_none] at h1
    cases h1
  · rw [cmpParadox_some_none] at h2
    cases h2
  · exact cmpParadox_none_some qc pc
  · rw [cmpParadox_some_none] at h1
    cases h1
  · rw [cmpParadox_some_none] at h1
    cases h1
  · rw [cmpParadox_some_none] at h2
    cases h2
  · rw [cmpParadox_some_some_lt_iff] at h1 h2 ⊢
    linarith

lemma cmpParadox_not_lt_trans {a b c : Option (ℚ × P)} (h1 : cmpParadox a b ≠ .lt)
    (h2 : cmpParadox b c ≠ .lt) : cmpParadox a c ≠ .lt := by
  rcases a with _ | ⟨qa, pa⟩ <;> rcases b with _ | ⟨qb, pb⟩ <;> rcases c with _ | ⟨qc, pc⟩
  · rw [cmpParadox_none_none]
    decide
  · exact absurd (cmpParadox_none_some qc pc) h2
  · rw [cmpParadox_none_none]
    decide
  · exact absurd (cmpParadox_none_some qb pb) h1
  · rw [cmpParadox_some_none]
    decide
  · exact absurd (cmpParadox_none_some qc pc) h2
  · rw [cmpParadox_some_none]
    decide
  · intro hcon
    rw [cmpParadox_some_some_lt_iff] at hcon
    have hab : ¬ qa < qb := fun hx => h1 (cmpParadox_some_some_lt_iff.mpr hx)
    have hbc : ¬ qb < qc := fun hx => h2 (cmpParadox_some_some_lt_iff.mpr hx)
    linarith [le_of_not_lt hab, le_of_not_lt hbc]

lemma minBy_fold_spec :
    ∀ (xs : List (Option (ℚ × P))) (x : Option (ℚ × P)),
      (xs.foldl (fun acc y => if cmpParadox y acc = .lt then y else acc) x) ∈ x :: xs ∧
      ∀ z ∈ x :: xs,
        cmpParadox z
          (xs.foldl (fun acc y => if cmpParadox y acc = .lt then y else acc) x) ≠ .lt := by
  intro xs
  induction xs with
  | nil =>
    intro x
    refine ⟨by simp, ?_⟩
    intro z hz
    simp only [List.mem_singleton] at hz
    subst hz
    exact cmpParadox_self_not_lt z
  | cons y ys ih =>
    intro x
    simp only [List.foldl_cons]
    set s : Option (ℚ × P) := if cmpParadox y x = .lt then y else x with hs_def
    obtain ⟨ih1, ih2⟩ := ih s
    have hs2 := ih2 s (List.mem_cons_self s ys)
    constructor
    · rcases List.mem_cons.mp ih1 with h | h
      · rw [h, hs_def]
        split_ifs
        · exact List.mem_cons_of_mem x (List.mem_cons_self y ys)
        · exact List.mem_cons_self x (y :: ys)
      · exact List.mem_cons_of_mem x (List.mem_cons_of_mem y h)
    · intro z hz
      rcases List.mem_cons.mp hz with hzx | hz2
      · rw [hzx]
        by_cases hc : cmpParadox y x = .lt
        · have hsy : s = y := by rw [hs_def, if_pos hc]
          nth_rewrite 1 [hsy] at hs2
          intro hcon
          exact hs2 (cmpParadox_trans hc hcon)
        · have hsx : s = x := by rw [hs_def, if_neg hc]
          nth_rewrite 1 [hsx] at hs2
          exact hs2
      · rcases List.mem_cons.mp hz2 with hzy | hz3
        · rw [hzy]
          by_cases hc : cmpParadox y x = .lt
          · have hsy : s = y := by rw [hs_def, if_pos hc]
            nth_rewrite 1 [hsy] at hs2
            exact hs2
          · have hsx : s = x := by rw [hs_def, if_neg hc]
            nth_rewrite 1 [hsx] at hs2
            exact cmpParadox_not_lt_trans hc hs2
        · exact ih2 z (List.mem_cons_of_mem s hz3)

lemma minBy_spec (l : List (Option (ℚ × P))) (m : Option (ℚ × P))
    (h : minBy cmpParadox l = some m) :
    m ∈ l ∧ ∀ z ∈ l, cmpParadox z m ≠ .lt := by
  cases l with
  | nil => cases h
  | cons x xs =>
    rw [minBy] at h
    cases h
    rw [minBy_fold_congr]
    exact minBy_fold_spec xs x

lemma cmpParadox_some_not_lt {q pl : ℚ} {pos2 pos : P}
    (h : cmpParadox (some (q, pos2)) (some (pl, pos)) ≠ .lt) : pl ≤ q := by
  rw [cmpParadox_some_some] at h
  split_ifs at h with h1 h2
  · cases h rfl
  · linarith
  · linarith

lemma cmpParadox_none_not_lt {m : Option (ℚ × P)}
    (h : cmpParadox Option.none m ≠ .lt) : m = Option.none := by
  rcases m with _ | ⟨q, p⟩
  · rfl
  · exact absurd (cmpParadox_none_some q p) h

lemma clamp01_of_bounds {x : ℚ} (h0 : 0 ≤ x) (h1 : x ≤ 1) : clamp01 x = x := by
  rw [clamp01, max_eq_left h0, min_eq_left h1]

lemma paradoxWindow_eq (frame : Nat) (h2 : 2 ≤ frame) (hhi : frame + 3 < USIZE_SIZE) :
    paradoxWindow frame = [frame - 2, frame - 1, frame, frame + 1, frame + 2] := by
  have hU : USIZE_SIZE = 2 ^ 64 := rfl
  have hlo : usizeWrappingSub frame Player.MAXIMUM_TEMPORAL_OFFSET = frame - 2 := by
    rw [usizeWrappingSub, Player.MAXIMUM_TEMPORAL_OFFSET, hU]
    rw [hU] at hhi
    omega
  have hhi2 : (frame + Player.MAXIMUM_TEMPORAL_OFFSET + 1) % USIZE_SIZE = frame + 3 := by
    rw [Player.MAXIMUM_TEMPORAL_OFFSET, hU]
    rw [hU] at hhi
    omega
  rw [paradoxWindow]
  rw [hlo, hhi2]
  have h5 : frame + 3 - (frame - 2) = 5 := by omega
  rw [h5]
  simp only [List.range']
  refine congrArg₂ _ rfl ?_
  refine congrArg₂ _ (by omega) ?_
  refine congrArg₂ _ (by omega) ?_
  refine congrArg₂ _ (by omega) ?_
  refine congrArg₂ _ (by omega) rfl

lemma recordingUpdate_min_some (paradoxLevel : Nat → Option (ℚ × P)) (frame : Nat)
    (c : ℚ) (oldPP : Option (ℚ × P)) (dt : ℚ) (pl : ℚ) (pp : P)
    (hmin : minBy cmpParadox ((paradoxWindow frame).map paradoxLevel) =
      some (some (pl, pp))) :
    Player.recordingUpdate paradoxLevel frame true c oldPP dt =
      { confusion := clamp01 (c + pl / Player.CONFUSION_TIME * dt),
        paradoxPosition := some (pl, pp),
        dead := decide (c + pl / Player.CONFUSION_TIME * dt > 1) } := by
  rw [Player.recordingUpdate, if_pos rfl, hmin]

lemma recordingUpdate_min_none_elem (paradoxLevel : Nat → Option (ℚ × P)) (frame : Nat)
    (c : ℚ) (oldPP : Option (ℚ × P)) (dt : ℚ)
    (hmin : minBy cmpParadox ((paradoxWindow frame).map paradoxLevel) =
      some Option.none) :
    Player.recordingUpdate paradoxLevel frame true c oldPP dt =
      { confusion := clamp01 (c - 1 / Player.RECOVERY_TIME * dt),
        paradoxPosition := Option.none,
        dead := decide (c - 1 / Player.RECOVERY_TIME * dt > 1) } := by
  rw [Player.recordingUpdate, if_pos rfl, hmin]

lemma recordingUpdate_min_empty (paradoxLevel : Nat → Option (ℚ × P)) (frame : Nat)
    (c : ℚ) (oldPP : Option (ℚ × P)) (dt : ℚ)
    (hmin : minBy cmpParadox ((paradoxWindow frame).map paradoxLevel) = Option.none) :
    Player.recordingUpdate paradoxLevel frame true c oldPP dt =
      { confusion := clamp01 (c - 1 / Player.RECOVERY_TIME * dt),
        paradoxPosition := Option.none,
        dead := decide (c - 1 / Player.RECOVERY_TIME * dt > 1) } := by
  rw [Player.recordingUpdate, if_pos rfl, hmin]

end ParadoxLemmas


/-! ## Claim theorems: the Recording-state confusion update -/

/-- C2: in the Recording state with a history entry at the current frame (and the
frame far from the `usize` boundaries), the update scans the window of frames within
±2 of the current frame; when every window frame reports a paradox it picks a
minimal paradox level `pl` from the window and the confusion becomes
`clamp01 (confusion + pl / CONFUSION_TIME * dt)`; when some window frame reports no
paradox the confusion becomes `clamp01 (confusion - 1 / RECOVERY_TIME * dt)` and the
paradox position is cleared. -/
theorem c2_recording_confusion_window {P : Type} (paradoxLevel : Nat → Option (ℚ × P))
    (frame : Nat) (confusion : ℚ) (oldPP : Option (ℚ × P)) (dt : ℚ)
    (h2 : 2 ≤ frame) (hhi : frame + 3 < USIZE_SIZE) :
    paradoxWindow frame = [frame - 2, frame - 1, frame, frame + 1, frame + 2] ∧
    ((∀ k ∈ paradoxWindow frame, (paradoxLevel k).isSome = true) →
      ∃ k ∈ paradoxWindow frame, ∃ pl pp, paradoxLevel k = some (pl, pp) ∧
        (∀ j ∈ paradoxWindow frame, ∀ q pq, paradoxLevel j = some (q, pq) → pl ≤ q) ∧
        Player.recordingUpdate paradoxLevel frame true confusion oldPP dt =
          { confusion := clamp01 (confusion + pl / Player.CONFUSION_TIME * dt),
            paradoxPosition := some (pl, pp),
            dead := decide (confusion + pl / Player.CONFUSION_TIME * dt > 1) }) ∧
    ((∃ k ∈ paradoxWindow frame, paradoxLevel k = Option.none) →
      Player.recordingUpdate paradoxLevel frame true confusion oldPP dt =
        { confusion := clamp01 (confusion - 1 / Player.RECOVERY_TIME * dt),
          paradoxPosition := Option.none,
          dead := decide (confusion - 1 / Player.RECOVERY_TIME * dt > 1) }) := by
  have hwin := paradoxWindow_eq frame h2 hhi
  refine ⟨hwin, ?_, ?_⟩
  · intro hall
    obtain ⟨m, hm⟩ : ∃ m,
        minBy cmpParadox ((paradoxWindow frame).map paradoxLevel) = some m := by
      rw [hwin]
      exact ⟨_, rfl⟩
    obtain ⟨hmem, hmin_all⟩ := minBy_spec _ m hm
    obtain ⟨k, hk, hkm⟩ := List.mem_map.mp hmem
    rcases m with _ | ⟨pl, pp⟩
    · have hks := hall k hk
      rw [hkm] at hks
      cases hks
    · refine ⟨k, hk, pl, pp, hkm, ?_, ?_⟩
      · intro j hj q pq hq
        have hne2 := hmin_all (paradoxLevel j) (List.mem_map.mpr ⟨j, hj, rfl⟩)
        rw [hq] at hne2
        exact cmpParadox_some_not_lt hne2
      · exact recordingUpdate_min_some paradoxLevel frame confusion oldPP dt pl pp hm
  · rintro ⟨k, hk, hknone⟩
    obtain ⟨m, hm⟩ : ∃ m,
        minBy cmpParadox ((paradoxWindow frame).map paradoxLevel) = some m := by
      rw [hwin]
      exact ⟨_, rfl⟩
    obtain ⟨hmem, hmin_all⟩ := minBy_spec _ m hm
    have hz := hmin_all Option.none (List.mem_map.mpr ⟨k, hk, hknone⟩)
    have hmn : m = Option.none := cmpParadox_none_not_lt hz
    subst hmn
    exact recordingUpdate_min_none_elem paradoxLevel frame confusion oldPP dt hm

/-- Witness for C2 at frame 2 with a paradox-free window frame: the confusion
decays and the paradox position is cleared. -/
theorem c2_recording_confusion_window_witness :
    (2 : Nat) ≤ 2 ∧ (2 : Nat) + 3 < USIZE_SIZE ∧
    Player.recordingUpdate (fun _ => (Option.none : Option (ℚ × Unit))) 2 true 1
        Option.none 1 =
      { confusion := clamp01 (1 - 1 / Player.RECOVERY_TIME * 1),
        paradoxPosition := Option.none,
        dead := decide ((1 : ℚ) - 1 / Player.RECOVERY_TIME * 1 > 1) } :=
  ⟨le_refl 2, by norm_num [USIZE_SIZE],
    (c2_recording_confusion_window (fun _ => (Option.none : Option (ℚ × Unit))) 2 1
        Option.none 1 (le_refl 2) (by norm_num [USIZE_SIZE])).2.2
      ⟨0, by decide, rfl⟩⟩

/-- C10: the Recording window start `frame - MAXIMUM_TEMPORAL_OFFSET` is the plain
subtraction only when `frame ≥ 2`; for `frame < 2` the `usize` subtraction wraps to
`2^64 - 2 + frame` (the debug-build overflow panic is reachable), the wrapped start
exceeds the frame so the window range is empty, and the Recording update then always
takes the recovery branch, so no paradox can be detected at the first two frames. -/
theorem c10_window_start_underflow :
    (∀ frame : Nat, 2 ≤ frame → frame < USIZE_SIZE →
      usizeWrappingSub frame Player.MAXIMUM_TEMPORAL_OFFSET = frame - 2) ∧
    (∀ frame : Nat, frame < 2 →
      usizeWrappingSub frame Player.MAXIMUM_TEMPORAL_OFFSET = USIZE_SIZE - 2 + frame ∧
      frame < usizeWrappingSub frame Player.MAXIMUM_TEMPORAL_OFFSET ∧
      paradoxWindow frame = []) ∧
    (∀ (P : Type) (paradoxLevel : Nat → Option (ℚ × P)) (frame : Nat) (c : ℚ)
      (oldPP : Option (ℚ × P)) (dt : ℚ), frame < 2 →
      Player.recordingUpdate paradoxLevel frame true c oldPP dt =
        { confusion := clamp01 (c - 1 / Player.RECOVERY_TIME * dt),
          paradoxPosition := Option.none,
          dead := decide (c - 1 / Player.RECOVERY_TIME * dt > 1) }) := by
  have hU : USIZE_SIZE = 2 ^ 64 := rfl
  have hwrap : ∀ frame : Nat, frame < 2 →
      usizeWrappingSub frame Player.MAXIMUM_TEMPORAL_OFFSET = USIZE_SIZE - 2 + frame := by
    intro frame hf
    rw [usizeWrappingSub, Player.MAXIMUM_TEMPORAL_OFFSET, hU]
    omega
  have hempty : ∀ frame : Nat, frame < 2 → paradoxWindow frame = [] := by
    intro frame hf
    rw [paradoxWindow]
    have hlo := hwrap frame hf
    have hhi : (frame + Player.MAXIMUM_TEMPORAL_OFFSET + 1) % USIZE_SIZE = frame + 3 := by
      rw [Player.MAXIMUM_TEMPORAL_OFFSET, hU]
      omega
    rw [hlo, hhi]
    have h0 : frame + 3 - (USIZE_SIZE - 2 + frame) = 0 := by
      rw [hU]
      omega
    rw [h0]
    rfl
  refine ⟨?_, ?_, ?_⟩
  · intro frame h2 hlt
    rw [usizeWrappingSub, Player.MAXIMUM_TEMPORAL_OFFSET, hU]
    rw [hU] at hlt
    omega
  · intro frame hf
    refine ⟨hwrap frame hf, ?_, hempty frame hf⟩
    rw [hwrap frame hf, hU]
    omega
  · intro P paradoxLevel frame c oldPP dt hf
    refine recordingUpdate_min_empty paradoxLevel frame c oldPP dt ?_
    rw [hempty frame hf]
    rfl

/-- Witness for C10 at frame 0: the window start wraps to `2^64 - 2`, the window is
empty, and the Recording update decays the confusion. -/
theorem c10_window_start_underflow_witness :
    (0 : Nat) < 2 ∧
    usizeWrappingSub 0 Player.MAXIMUM_TEMPORAL_OFFSET = USIZE_SIZE - 2 ∧
    paradoxWindow 0 = [] ∧
    Player.recordingUpdate (fun k => some ((k : ℚ), ())) 0 true 1 Option.none 1 =
      { confusion := clamp01 (1 - 1 / Player.RECOVERY_TIME * 1),
        paradoxPosition := Option.none,
        dead := decide ((1 : ℚ) - 1 / Player.RECOVERY_TIME * 1 > 1) } :=
  ⟨by decide,
    (c10_window_start_underflow.2.1 0 (by decide)).1,
    (c10_window_start_underflow.2.1 0 (by decide)).2.2,
    c10_window_start_underflow.2.2 Unit (fun k => some ((k : ℚ), ())) 0 1 Option.none 1
      (by decide)⟩


/-! ## Lemmas and claim theorems: axis-aligned raycasting -/


lemma floorQ_eq (x : ℚ) : floorQ x = ⌊x⌋ := by
  have hd : (0 : ℤ) < (x.den : ℤ) := by exact_mod_cast x.pos
  have hdq : (0 : ℚ) < (x.den : ℚ) := by exact_mod_cast x.pos
  symm
  rw [Int.floor_eq_iff]
  constructor
  · conv_rhs => rw [← Rat.num_div_den x]
    rw [le_div_iff₀ hdq]
    exact_mod_cast Int.ediv_mul_le x.num (ne_of_gt hd)
  · conv_lhs => rw [← Rat.num_div_den x]
    rw [div_lt_iff₀ hdq]
    exact_mod_cast Int.lt_ediv_add_one_mul_self x.num hd

lemma ceilQ_eq (x : ℚ) : ceilQ x = ⌈x⌉ := by
  rw [ceilQ, floorQ_eq, ← Int.ceil_neg, neg_neg]

lemma fractQ_eq (x : ℚ) : fractQ x = Int.fract x := by
  rw [fractQ, floorQ_eq, Int.fract]

lemma floorQ_intCast (k : ℤ) : floorQ ((k : ℚ)) = k := by
  rw [floorQ_eq, Int.floor_intCast]

lemma ceilQ_intCast (k : ℤ) : ceilQ ((k : ℚ)) = k := by
  rw [ceilQ_eq, Int.ceil_intCast]

lemma fractQ_intCast (k : ℤ) : fractQ ((k : ℚ)) = 0 := by
  rw [fractQ_eq, Int.fract_intCast]

lemma fractQ_neg_intCast (k : ℤ) : fractQ (-(k : ℚ)) = 0 := by
  rw [show (-(k : ℚ)) = ((-k : ℤ) : ℚ) by push_cast; ring, fractQ_intCast]

lemma floorQ_cast_add_one (k : ℤ) : floorQ ((k : ℚ) + 1) = k + 1 := by
  rw [show ((k : ℚ) + 1) = ((k + 1 : ℤ) : ℚ) by push_cast; ring, floorQ_intCast]

lemma ceilQ_cast_sub_one (k : ℤ) : ceilQ ((k : ℚ) - 1) = k - 1 := by
  rw [show ((k : ℚ) - 1) = ((k - 1 : ℤ) : ℚ) by push_cast; ring, ceilQ_intCast]

lemma signumF_zero : signumF 0 = 1 := by norm_num [signumF]

lemma signumF_one : signumF 1 = 1 := by norm_num [signumF]

lemma signumF_negOne : signumF (-1) = -1 := by norm_num [signumF]

lemma FTime.div_den_zero (num : ℚ) : FTime.div num 0 = .inf := by
  rw [FTime.div, if_pos rfl]

lemma FTime.div_den_one (num : ℚ) : FTime.div num 1 = .fin num := by
  rw [FTime.div, if_neg one_ne_zero, div_one]

lemma moveInDirection_one (x : ℚ) : moveInDirection x 1 = ((floorQ x : ℤ) : ℚ) + 1 := by
  rw [moveInDirection, if_pos one_pos]

lemma moveInDirection_negOne (x : ℚ) :
    moveInDirection x (-1) = ((ceilQ x : ℤ) : ℚ) - 1 := by
  rw [moveInDirection, if_neg (by norm_num)]

lemma bool_ite_not_or (sa c : Bool) : (if (!sa) = true then c else sa) = (sa || c) := by
  cases sa <;> simp

lemma raycastLoop_up (g : ℤ × ℤ → Bool) (sx sy : ℤ) (maxD : ℚ) :
    ∀ (fuel : Nat) (py : ℤ) (qy : ℚ), qy = (py : ℚ) → ∀ (sa sb : Bool),
      raycastLoop (fun _ idx => g idx) ((sx : ℚ), (sy : ℚ)) (0, 1) true false 1 1
        maxD ((maxD - EPSILON) ^ 2) fuel ((sx : ℚ), qy) sa sb =
      latchWalk g (sx, sy) (0, 1) maxD fuel (sx, py) sa sb := by
  intro fuel
  induction fuel with
  | zero =>
    intro py qy hq sa sb
    rfl
  | succ n ih =>
    intro py qy hq sa sb
    subst hq
    rw [raycastLoop, latchWalk]
    simp only [signumF_zero, signumF_one, mul_one, mul_zero, zero_mul, one_mul,
      add_zero, zero_add, fractQ_intCast, sub_zero, abs_zero, abs_one,
      FTime.div_den_zero, FTime.div_den_one, FTime.closeEnough,
      Bool.false_eq_true, if_false, moveInDirection_one, floorQ_intCast,
      floorQ_cast_add_one, indexOfLocation, le_refl, if_true, zero_le_one,
      bool_ite_not_or, Int.cast_add, Int.cast_one, Bool.or_false,
      Bool.true_or, Bool.false_or, Int.cast_zero, gt_iff_lt, zero_lt_one]
    rw [ih (py + 1) ((py : ℚ) + 1) (by push_cast; ring)]


lemma not_one_lt_zeroQ : ¬((1 : ℚ) < 0) := by norm_num

lemma negOneQ_lt_zero : (-1 : ℚ) < 0 := by norm_num

lemma not_zero_le_negOneQ : ¬((0 : ℚ) ≤ -1) := by norm_num

lemma not_zero_le_negOneZ : ¬((0 : ℤ) ≤ -1) := by norm_num

lemma not_zero_lt_negOneZ : ¬((0 : ℤ) < -1) := by norm_num

lemma negOne_ne_zeroZ : ((-1 : ℤ) = 0) = False := by norm_num

lemma one_ne_zeroZ : ((1 : ℤ) = 0) = False := by norm_num

lemma raycastLoop_down (g : ℤ × ℤ → Bool) (sx sy : ℤ) (maxD : ℚ) :
    ∀ (fuel : Nat) (py : ℤ) (qy : ℚ), qy = (py : ℚ) → ∀ (sa sb : Bool),
      raycastLoop (fun _ idx => g idx) ((sx : ℚ), (sy : ℚ)) (0, -1) true false 1 (-1)
        maxD ((maxD - EPSILON) ^ 2) fuel ((sx : ℚ), qy) sa sb =
      latchWalk g (sx, sy) (0, -1) maxD fuel (sx, py) sa sb := by
  intro fuel
  induction fuel with
  | zero =>
    intro py qy hq sa sb
    rfl
  | succ n ih =>
    intro py qy hq sa sb
    subst hq
    rw [raycastLoop, latchWalk]
    simp only [signumF_zero, signumF_negOne, mul_one, mul_zero, zero_mul, one_mul,
      mul_neg_one, neg_one_mul, fractQ_intCast, fractQ_neg_intCast, sub_zero,
      abs_zero, abs_one, abs_neg, FTime.div_den_zero, FTime.div_den_one,
      FTime.closeEnough, Bool.false_eq_true, if_false, moveInDirection_negOne,
      ceilQ_intCast, ceilQ_cast_sub_one, indexOfLocation, le_refl, if_true,
      zero_le_one, not_zero_le_negOneQ, not_zero_le_negOneZ, floorQ_intCast,
      bool_ite_not_or, Int.cast_add,
      Int.cast_one, Int.cast_sub, Int.cast_neg, Int.cast_zero, Bool.or_false,
      Bool.true_or, Bool.false_or, gt_iff_lt, zero_lt_one, not_zero_lt_negOneZ,
      add_zero, zero_add, ← sub_eq_add_neg]
    rw [ih (py - 1) ((py : ℚ) - 1) (by push_cast; ring)]

lemma raycastLoop_right (g : ℤ × ℤ → Bool) (sx sy : ℤ) (maxD : ℚ) :
    ∀ (fuel : Nat) (px : ℤ) (qx : ℚ), qx = (px : ℚ) → ∀ (sa sb : Bool),
      raycastLoop (fun _ idx => g idx) ((sx : ℚ), (sy : ℚ)) (1, 0) false true 1 1
        maxD ((maxD - EPSILON) ^ 2) fuel (qx, (sy : ℚ)) sa sb =
      latchWalk g (sx, sy) (1, 0) maxD fuel (px, sy) sa sb := by
  intro fuel
  induction fuel with
  | zero =>
    intro px qx hq sa sb
    rfl
  | succ n ih =>
    intro px qx hq sa sb
    subst hq
    rw [raycastLoop, latchWalk]
    simp only [signumF_zero, signumF_one, mul_one, mul_zero, zero_mul, one_mul,
      add_zero, zero_add, fractQ_intCast, sub_zero, abs_zero, abs_one,
      FTime.div_den_zero, FTime.div_den_one, FTime.closeEnough,
      Bool.false_eq_true, if_false, moveInDirection_one, floorQ_intCast,
      floorQ_cast_add_one, indexOfLocation, le_refl, if_true, zero_le_one,
      bool_ite_not_or, Int.cast_add, Int.cast_one, Int.cast_zero, Bool.or_false,
      Bool.true_or, Bool.false_or, gt_iff_lt, zero_lt_one, one_ne_zeroZ]
    rw [ih (px + 1) ((px : ℚ) + 1) (by push_cast; ring)]

lemma raycastLoop_left (g : ℤ × ℤ → Bool) (sx sy : ℤ) (maxD : ℚ) :
    ∀ (fuel : Nat) (px : ℤ) (qx : ℚ), qx = (px : ℚ) → ∀ (sa sb : Bool),
      raycastLoop (fun _ idx => g idx) ((sx : ℚ), (sy : ℚ)) (-1, 0) false true (-1) 1
        maxD ((maxD - EPSILON) ^ 2) fuel (qx, (sy : ℚ)) sa sb =
      latchWalk g (sx, sy) (-1, 0) maxD fuel (px, sy) sa sb := by
  intro fuel
  induction fuel with
  | zero =>
    intro px qx hq sa sb
    rfl
  | succ n ih =>
    intro px qx hq sa sb
    subst hq
    rw [raycastLoop, latchWalk]
    simp only [signumF_zero, signumF_negOne, mul_one, mul_zero, zero_mul, one_mul,
      mul_neg_one, neg_one_mul, fractQ_intCast, fractQ_neg_intCast, sub_zero,
      abs_zero, abs_one, abs_neg, FTime.div_den_zero, FTime.div_den_one,
      FTime.closeEnough, Bool.false_eq_true, if_false, moveInDirection_negOne,
      ceilQ_intCast, ceilQ_cast_sub_one, indexOfLocation, le_refl, if_true,
      zero_le_one, not_zero_le_negOneQ, not_zero_le_negOneZ, floorQ_intCast,
      bool_ite_not_or,
      Int.cast_add, Int.cast_one, Int.cast_sub, Int.cast_neg, Int.cast_zero,
      Bool.or_false, Bool.true_or, Bool.false_or, gt_iff_lt, zero_lt_one,
      not_zero_lt_negOneZ, negOne_ne_zeroZ, add_zero, zero_add, ← sub_eq_add_neg]
    rw [ih (px - 1) ((px : ℚ) - 1) (by push_cast; ring)]


lemma zero_le_EPSILON : (0 : ℚ) ≤ EPSILON := by norm_num [EPSILON]

lemma not_one_le_EPSILON : ¬((1 : ℚ) ≤ EPSILON) := by norm_num [EPSILON]

lemma roundF_intCast (k : ℤ) : roundF ((k : ℚ)) = (k : ℚ) := by
  rw [roundF]
  split_ifs with h
  · rw [show -(k : ℚ) + 1 / 2 = 1 / 2 + ((-k : ℤ) : ℚ) by push_cast; ring, floorQ_eq,
      Int.floor_add_int]
    push_cast
    norm_num
  · rw [show (k : ℚ) + 1 / 2 = 1 / 2 + ((k : ℤ) : ℚ) by ring, floorQ_eq,
      Int.floor_add_int]
    push_cast
    norm_num

lemma raycast_up (g : ℤ × ℤ → Bool) (sx sy : ℤ) (maxD : ℚ) (fuel : Nat) :
    raycast (fun _ idx => g idx) ((sx : ℚ), (sy : ℚ)) (0, 1) maxD fuel =
      if g (sx - 1, sy) || g (sx, sy) then some (((sx : ℚ), (sy : ℚ)), Option.none)
      else latchWalk g (sx, sy) (0, 1) maxD fuel (sx, sy) false false := by
  rw [raycast]
  simp only [abs_zero, abs_one, zero_le_EPSILON, not_one_le_EPSILON, if_true,
    if_false, signumF_one, roundF_intCast, sub_self, indexOfLocation, le_refl,
    zero_le_one, floorQ_intCast, not_one_lt_zeroQ, lt_self_iff_false]
  by_cases h : (g (sx - 1, sy) || g (sx, sy)) = true
  · rw [if_pos h, if_pos h]
  · rw [if_neg h, if_neg h]
    obtain ⟨ha, hb⟩ := Bool.or_eq_false_iff.mp (Bool.eq_false_iff.mpr h)
    rw [ha, hb]
    exact raycastLoop_up g sx sy maxD fuel sy (sy : ℚ) rfl false false

lemma raycast_down (g : ℤ × ℤ → Bool) (sx sy : ℤ) (maxD : ℚ) (fuel : Nat) :
    raycast (fun _ idx => g idx) ((sx : ℚ), (sy : ℚ)) (0, -1) maxD fuel =
      if g (sx - 1, sy - 1) || g (sx, sy - 1) then
        some (((sx : ℚ), (sy : ℚ)), Option.none)
      else latchWalk g (sx, sy) (0, -1) maxD fuel (sx, sy) false false := by
  rw [raycast]
  simp only [abs_zero, abs_one, abs_neg, zero_le_EPSILON, not_one_le_EPSILON,
    if_true, if_false, signumF_negOne, roundF_intCast, sub_self, indexOfLocation,
    le_refl, not_zero_le_negOneQ, floorQ_intCast, ceilQ_intCast, negOneQ_lt_zero,
    lt_self_iff_false]
  by_cases h : (g (sx - 1, sy - 1) || g (sx, sy - 1)) = true
  · rw [if_pos h, if_pos h]
  · rw [if_neg h, if_neg h]
    obtain ⟨ha, hb⟩ := Bool.or_eq_false_iff.mp (Bool.eq_false_iff.mpr h)
    rw [ha, hb]
    exact raycastLoop_down g sx sy maxD fuel sy (sy : ℚ) rfl false false

lemma raycast_right (g : ℤ × ℤ → Bool) (sx sy : ℤ) (maxD : ℚ) (fuel : Nat) :
    raycast (fun _ idx => g idx) ((sx : ℚ), (sy : ℚ)) (1, 0) maxD fuel =
      if g (sx, sy - 1) || g (sx, sy) then some (((sx : ℚ), (sy : ℚ)), Option.none)
      else latchWalk g (sx, sy) (1, 0) maxD fuel (sx, sy) false false := by
  rw [raycast]
  simp only [abs_zero, abs_one, zero_le_EPSILON, not_one_le_EPSILON, if_true,
    if_false, Bool.false_eq_true, signumF_one, roundF_intCast, sub_self,
    indexOfLocation, le_refl,
    zero_le_one, floorQ_intCast, not_one_lt_zeroQ, lt_self_iff_false]
  by_cases h : (g (sx, sy - 1) || g (sx, sy)) = true
  · rw [if_pos h, if_pos h]
  · rw [if_neg h, if_neg h]
    obtain ⟨ha, hb⟩ := Bool.or_eq_false_iff.mp (Bool.eq_false_iff.mpr h)
    rw [ha, hb]
    exact raycastLoop_right g sx sy maxD fuel sx (sx : ℚ) rfl false false

lemma raycast_left (g : ℤ × ℤ → Bool) (sx sy : ℤ) (maxD : ℚ) (fuel : Nat) :
    raycast (fun _ idx => g idx) ((sx : ℚ), (sy : ℚ)) (-1, 0) maxD fuel =
      if g (sx - 1, sy - 1) || g (sx - 1, sy) then
        some (((sx : ℚ), (sy : ℚ)), Option.none)
      else latchWalk g (sx, sy) (-1, 0) maxD fuel (sx, sy) false false := by
  rw [raycast]
  simp only [abs_zero, abs_one, abs_neg, zero_le_EPSILON, not_one_le_EPSILON,
    if_true, if_false, signumF_negOne, roundF_intCast, sub_self, indexOfLocation,
    le_refl, zero_le_one, not_zero_le_negOneQ, floorQ_intCast, ceilQ_intCast,
    negOneQ_lt_zero, lt_self_iff_false, Bool.false_eq_true]
  by_cases h : (g (sx - 1, sy - 1) || g (sx - 1, sy)) = true
  · rw [if_pos h, if_pos h]
  · rw [if_neg h, if_neg h]
    obtain ⟨ha, hb⟩ := Bool.or_eq_false_iff.mp (Bool.eq_false_iff.mpr h)
    rw [ha, hb]
    exact raycastLoop_left g sx sy maxD fuel sx (sx : ℚ) rfl false false


/-- C3 counterexample: with the single occluding cell `(-1, 1)`, a ray fired
straight up the grid line `x = 0` from the origin with `max_distance = 10` passes
the blocked slab at `y ∈ [1, 2]` (only `side_a` latches, `side_b` never does) and
returns the full-length point `(0, 10)` with no collision, while the brute-force
scan of the claim collides at `(0, 1)`. -/
theorem c3_raycast_claim_false : ¬ c3ClaimStatement := by
  intro h
  have hray : raycast (fun _ idx => decide (idx = ((-1 : ℤ), (1 : ℤ))))
      ((0 : ℚ), (0 : ℚ)) ((0 : ℚ), (1 : ℚ)) 10 11 =
      some (((0 : ℚ), 10), Option.none) := by
    have h1 := raycast_up (fun i => decide (i = ((-1 : ℤ), (1 : ℤ)))) 0 0 10 11
    push_cast at h1
    rw [h1, if_neg (by decide)]
    norm_num [latchWalk, EPSILON]
  have hbf : bruteForce (fun i => decide (i = ((-1 : ℤ), (1 : ℤ)))) 0 0 true true 10 =
      some ((0 : ℚ), 1) := by
    norm_num [bruteForce, bruteScan, floorQ, ceilQ]
    split_ifs with hc
    · exact absurd hc (by decide)
    · rfl
  have hmain := h (fun i => decide (i = ((-1 : ℤ), (1 : ℤ)))) 0 0 true true 10 11
    ((0 : ℚ), 10) Option.none (by norm_num) (by push_cast; simpa using hray)
  rw [hbf] at hmain
  exact hmain.1 rfl

/-- C3 amended: on an exactly axis-aligned unit ray started at a lattice point,
`raycast` equals the transparent latch walk: at the start the two cells sharing the
travelled grid line are tested and a hit returns the start with no collision
normal; afterwards, at each crossed cell boundary the two straddling cells are
latched into the persistent `side_a`/`side_b` flags, and a collision (with the
wall normal facing back along the ray) is reported only at the first boundary by
which BOTH sides have latched — blocked cells on one single side are passed over,
unlike the claim's brute-force scan. -/
theorem c3_raycast_axis_aligned (g : ℤ × ℤ → Bool) (sx sy : ℤ) (d : ℤ × ℤ)
    (hd : d = (0, 1) ∨ d = (0, -1) ∨ d = (1, 0) ∨ d = (-1, 0)) (maxD : ℚ)
    (fuel : Nat) :
    raycast (fun _ idx => g idx) ((sx : ℚ), (sy : ℚ)) ((d.1 : ℚ), (d.2 : ℚ)) maxD
        fuel =
      if (if d.1 = 0 then
            g ((if 0 ≤ d.1 then sx else sx - 1) - 1, if 0 ≤ d.2 then sy else sy - 1)
          else
            g (if 0 ≤ d.1 then sx else sx - 1, (if 0 ≤ d.2 then sy else sy - 1) - 1)) ||
          g (if 0 ≤ d.1 then sx else sx - 1, if 0 ≤ d.2 then sy else sy - 1) then
        some (((sx : ℚ), (sy : ℚ)), Option.none)
      else latchWalk g (sx, sy) d maxD fuel (sx, sy) false false := by
  rcases hd with h | h | h | h <;> subst h <;>
    simp only [Int.cast_zero, Int.cast_one, Int.cast_neg, le_refl, zero_le_one,
      eq_self_iff_true, if_true, if_false, not_zero_le_negOneZ, one_ne_zeroZ,
      negOne_ne_zeroZ]
  · exact raycast_up g sx sy maxD fuel
  · exact raycast_down g sx sy maxD fuel
  · exact raycast_right g sx sy maxD fuel
  · exact raycast_left g sx sy maxD fuel

/-- Witness for the amended C3 on the upward unit ray with no occluders. -/
theorem c3_raycast_axis_aligned_witness :
    raycast (fun _ idx => (fun _ : ℤ × ℤ => false) idx) (((0 : ℤ) : ℚ), ((0 : ℤ) : ℚ))
        (((0 : ℤ) : ℚ), ((1 : ℤ) : ℚ)) 10 11 =
      latchWalk (fun _ => false) (0, 0) (0, 1) 10 11 (0, 0) false false := by
  have h := c3_raycast_axis_aligned (fun _ => false) 0 0 (0, 1) (Or.inl rfl) 10 11
  simpa using h

end TimeStealth
